import Mathlib

/-!
# picoclaw: the Brain (timeline, reflection scheduler, summarization) and its memory backends

A shallow embedding of `pkg/brain/brain.go`, `pkg/brain/memory_inmemory.go`,
`pkg/brain/memory_badger.go`, `pkg/brain/module_conversation.go`, the callback wired in
`pkg/agent/brain_integration.go`, and `pkg/media/store.go`.

Modelling conventions
* A method with a pointer receiver becomes a function from the receiver's state to the
  new state, the effects it emitted (in program order) and its Go return value.
  The mutex held for the whole body of every method makes each call one atomic step.
* `time.Now()` is an input of the call (`now`); `time.Time.Format` is a parameter.
* Go `int` is a 64-bit two's complement integer: `Int` with `wrapInt` after arithmetic.
* Go `any` is `GoAny`; Go `error` is `Option GoError` (`none` is `nil`).
* Go `map[string]V` is an association list with unique keys (`GoMap V`).
* Go `[]T` is `List T`; `append` adds at the end and `s[:0]` is the empty list.
-/

namespace Picoclaw

/-! ## Go base types -/

/-- An instant (`time.Time`), as a number of clock ticks. -/
abbrev Time := Nat

/-- Go values of static type `any`, as far as this package handles them: it stores and
returns them without ever inspecting them. -/
inductive GoAny where
  | nil
  | bool (b : Bool)
  | int (n : Int)
  | str (s : String)
  | ptr (addr : Nat)
  deriving DecidableEq, Repr

/-- A non-nil Go `error`; `Error()` returns `msg`. -/
structure GoError where
  msg : String
  deriving DecidableEq, Repr

/-- Go `map[string]V`. -/
abbrev GoMap (V : Type) := AList (fun _ : String => V)

/-- The largest Go `int` (64-bit). -/
def maxInt : Int := 9223372036854775807

/-- The smallest Go `int` (64-bit). -/
def minInt : Int := -9223372036854775808

/-- Two's complement wrap-around of an `int` result. -/
def wrapInt (x : Int) : Int := (x + 9223372036854775808) % 18446744073709551616 - 9223372036854775808

/-- The value is representable as a Go `int`. -/
def IsInt (x : Int) : Prop := minInt ≤ x ∧ x ≤ maxInt

instance (x : Int) : Decidable (IsInt x) := by unfold IsInt; infer_instance

/-! ## Data model (`brain.go`) -/

/-- Go `Event`. -/
structure Event where
  Timestamp : Time
  Type_ : String
  Data : GoAny
  deriving DecidableEq, Repr

/-- Go `SelfReflectionModule` (`self_reflection.go`). -/
structure SelfReflectionModule where
  lastAnalysis : Time
  deriving DecidableEq, Repr

/-- Go `SecurityModule` (`security.go`): no fields. -/
structure SecurityModule where
  deriving DecidableEq, Repr

/-- Go `Brain`, without the mutex. `S` and `L` are the states of the short-term and the
long-term backend; `ReportFunc` holds the identity of the callback, `none` for `nil`. -/
structure Brain (S L : Type) where
  ShortTerm : S
  LongTerm : L
  Timeline : List Event
  SelfReflect : SelfReflectionModule
  reflectEvery : Int
  eventCount : Int
  reflectOn : GoMap Bool
  ReportFunc : Option Nat
  modules : GoMap GoAny
  Security : SecurityModule

/-- What a Brain method does to the world outside the Brain's own fields. -/
inductive Effect where
  /-- The statement `go b.reflectAndReport()`. -/
  | spawnReflect
  /-- The call `b.LongTerm.Remember(key, value)`. -/
  | remember (key : String) (value : GoAny)
  /-- The call `b.ReportFunc(summary)` on the callback `sink`. -/
  | report (sink : Nat) (summary : String)
  deriving DecidableEq, Repr

/-- The effect is a `Remember` on the long-term backend. -/
def Effect.isRemember : Effect → Bool
  | .remember _ _ => true
  | _ => false

/-- The result of a Brain method returning `error`. -/
structure Outcome (S L : Type) where
  brain : Brain S L
  effects : List Effect
  err : Option GoError

/-- Go `m[k]` on a `map[string]bool`: the zero value `false` when `k` is absent. -/
def indexBool (m : GoMap Bool) (k : String) : Bool :=
  match m.lookup k with
  | some v => v
  | none => false

/-- Go `NewBrain`. -/
def NewBrain {S L : Type} (shortTerm : S) (longTerm : L) : Brain S L :=
  { ShortTerm := shortTerm
    LongTerm := longTerm
    Timeline := []
    SelfReflect := { lastAnalysis := 0 }
    reflectEvery := 10
    eventCount := 0
    reflectOn := (AList.insert "user_feedback" true (AList.insert "inbound_message" true ∅))
    ReportFunc := none
    modules := ∅
    Security := {} }

/-- Go `Brain.LogEvent`. -/
def Brain.LogEvent {S L : Type} (b : Brain S L) (now : Time) (eventType : String)
    (data : GoAny) : Outcome S L :=
  let b1 := { b with Timeline := b.Timeline ++ [Event.mk now eventType data] }
  let b2 := { b1 with eventCount := wrapInt (b1.eventCount + 1) }
  if indexBool b2.reflectOn eventType || decide (b2.eventCount ≥ b2.reflectEvery) then
    { brain := { b2 with eventCount := 0 }, effects := [Effect.spawnReflect], err := none }
  else
    { brain := b2, effects := [], err := none }

/-- The arguments of one `LogEvent` call, with the clock reading it takes. -/
structure LogCall where
  now : Time
  eventType : String
  data : GoAny
  deriving DecidableEq, Repr

/-- The event a call appends. -/
def LogCall.event (c : LogCall) : Event := Event.mk c.now c.eventType c.data

/-- A run of `LogEvent` calls made one after the other by a single caller: the final
Brain, all effects in order, and the value each call returned. -/
def Brain.logEvents {S L : Type} (b : Brain S L) : List LogCall → Brain S L × List Effect × List (Option GoError)
  | [] => (b, [], [])
  | c :: cs =>
    let r := b.LogEvent c.now c.eventType c.data
    let rest := Brain.logEvents r.brain cs
    (rest.1, r.effects ++ rest.2.1, r.err :: rest.2.2)

/-- Go `Brain.SetReflectionFrequency`. -/
def Brain.SetReflectionFrequency {S L : Type} (b : Brain S L) (n : Int) : Brain S L :=
  { b with reflectEvery := n }

/-- Go `Brain.RegisterModule`. -/
def Brain.RegisterModule {S L : Type} (b : Brain S L) (name : String) (module : GoAny) :
    Brain S L :=
  { b with modules := b.modules.insert name module }

/-- Go `Brain.GetModule`: the comma-ok lookup `m, ok := b.modules[name]`. It writes to no
field of the Brain. -/
def Brain.GetModule {S L : Type} (b : Brain S L) (name : String) : GoAny × Bool :=
  match b.modules.lookup name with
  | some m => (m, true)
  | none => (GoAny.nil, false)

/-- Go `Brain.SetReflectionEvents`: a fresh map, then one store per listed event. -/
def Brain.SetReflectionEvents {S L : Type} (b : Brain S L) (events : List String) :
    Brain S L :=
  { b with reflectOn := events.foldl (fun (m : GoMap Bool) e => m.insert e true) ∅ }

/-- Go `Brain.SetReportFunc`. -/
def Brain.SetReportFunc {S L : Type} (b : Brain S L) (f : Option Nat) : Brain S L :=
  { b with ReportFunc := f }

/-- Go `SelfReflectionModule.Analyze`. -/
def SelfReflectionModule.Analyze (_m : SelfReflectionModule) (now : Time) :
    SelfReflectionModule :=
  { lastAnalysis := now }

/-- The two layouts `time.Time.Format` is called with in this package. -/
structure TimeFormat where
  /-- The layout `time.RFC3339`. -/
  rfc3339 : Time → String
  /-- The layout `"20060102T150405"`. -/
  compact : Time → String

/-- Go `Brain.reflectAndReport`: `now1` is the clock read by `Analyze`, `now2` the one
read for the summary. -/
def Brain.reflectAndReport {S L : Type} (fmt : TimeFormat) (b : Brain S L) (now1 now2 : Time) :
    Brain S L × List Effect :=
  let b1 := { b with SelfReflect := b.SelfReflect.Analyze now1 }
  let summary := "[Brain] Self-reflection complete at " ++ fmt.rfc3339 now2
  match b1.ReportFunc with
  | some f => (b1, [Effect.report f summary])
  | none => (b1, [])

/-- Go interface `MemoryModule`, as the method table of an implementation whose state
is `σ`. -/
structure MemoryModule (σ : Type) where
  Remember : σ → String → GoAny → σ × Option GoError
  Recall : σ → String → GoAny × Option GoError
  Search : σ → String → List GoAny × Option GoError
  Forget : σ → String → σ × Option GoError
  ListKeys : σ → List String × Option GoError

/-- The line `Summarize` adds to the digest for one event. -/
def eventLine (fmt : TimeFormat) (ev : Event) : String :=
  fmt.rfc3339 ev.Timestamp ++ ": " ++ ev.Type_ ++ "\n"

/-- The loop of `Summarize`: `for i, ev := range b.Timeline { if i >= 20 { break }; summary += ... }`,
entered at index `i` with the events still to visit. -/
def summaryLoop (fmt : TimeFormat) : Nat → List Event → String → String
  | _, [], summary => summary
  | i, ev :: rest, summary =>
    if i ≥ 20 then summary
    else summaryLoop fmt (i + 1) rest (summary ++ eventLine fmt ev)

/-- Go `Brain.Summarize`; `lt` is the method table of the value held in `LongTerm`. -/
def Brain.Summarize {S L : Type} (lt : MemoryModule L) (fmt : TimeFormat) (b : Brain S L)
    (now : Time) : Outcome S L :=
  if b.Timeline.length = 0 then
    { brain := b, effects := [], err := none }
  else
    let summary := summaryLoop fmt 0 b.Timeline "Summary of recent events:\n"
    let key := "summary:" ++ fmt.compact now
    let r := lt.Remember b.LongTerm key (GoAny.str summary)
    let err := r.2
    let notice : List Effect :=
      match err, b.ReportFunc with
      | some e, some f => [Effect.report f ("[Brain] Error saving summary: " ++ e.msg)]
      | _, _ => []
    let digest : List Effect :=
      match b.ReportFunc with
      | some f => [Effect.report f summary]
      | none => []
    { brain := { b with LongTerm := r.1, Timeline := [] }
      effects := Effect.remember key (GoAny.str summary) :: (notice ++ digest)
      err := err }

/-- A call of one of the Brain's public methods. -/
inductive BrainOp where
  | logEvent (now : Time) (eventType : String) (data : GoAny)
  | summarize (now : Time)
  | setReflectionFrequency (n : Int)
  | setReflectionEvents (events : List String)
  | setReportFunc (f : Option Nat)
  | registerModule (name : String) (module : GoAny)
  | getModule (name : String)

/-- The arguments fit their Go types: an `int` argument is a 64-bit integer. -/
def BrainOp.WellTyped : BrainOp → Prop
  | .setReflectionFrequency n => IsInt n
  | _ => True

/-- The Brain after the call and the effects of the call. -/
def Brain.apply {S L : Type} (lt : MemoryModule L) (fmt : TimeFormat) (b : Brain S L) :
    BrainOp → Brain S L × List Effect
  | .logEvent now eventType data =>
    ((b.LogEvent now eventType data).brain, (b.LogEvent now eventType data).effects)
  | .summarize now => ((b.Summarize lt fmt now).brain, (b.Summarize lt fmt now).effects)
  | .setReflectionFrequency n => (b.SetReflectionFrequency n, [])
  | .setReflectionEvents events => (b.SetReflectionEvents events, [])
  | .setReportFunc f => (b.SetReportFunc f, [])
  | .registerModule name module => (b.RegisterModule name module, [])
  | .getModule _ => (b, [])

/-- The Brain states a program can reach: built by `NewBrain`, then changed only by the
public methods and by the reflection tasks `LogEvent` starts. -/
inductive Reachable {S L : Type} (lt : MemoryModule L) (fmt : TimeFormat) : Brain S L → Prop where
  | init (shortTerm : S) (longTerm : L) : Reachable lt fmt (NewBrain shortTerm longTerm)
  | call (b : Brain S L) (op : BrainOp) :
      Reachable lt fmt b → op.WellTyped → Reachable lt fmt (b.apply lt fmt op).1
  | task (b : Brain S L) (now1 now2 : Time) :
      Reachable lt fmt b → Reachable lt fmt (b.reflectAndReport fmt now1 now2).1

/-- The concatenation of a list of strings. -/
def concatStrings : List String → String
  | [] => ""
  | s :: rest => s ++ concatStrings rest

/-! ## The volatile backend (`memory_inmemory.go`) -/

/-- Go `InMemoryMemory`, without the mutex. -/
structure InMemoryMemory where
  store : GoMap GoAny

/-- Go `NewInMemoryMemory`. -/
def NewInMemoryMemory : InMemoryMemory := { store := ∅ }

/-- Go `InMemoryMemory.Remember`. -/
def InMemoryMemory.Remember (m : InMemoryMemory) (key : String) (value : GoAny) :
    InMemoryMemory × Option GoError :=
  ({ store := m.store.insert key value }, none)

/-- Go `InMemoryMemory.Recall`. -/
def InMemoryMemory.Recall (m : InMemoryMemory) (key : String) : GoAny × Option GoError :=
  match m.store.lookup key with
  | none => (GoAny.nil, none)
  | some val => (val, none)

/-- Go `InMemoryMemory.Search`: a scan over all entries. -/
def InMemoryMemory.Search (m : InMemoryMemory) (query : String) :
    List GoAny × Option GoError :=
  (m.store.entries.foldl (fun results kv => if kv.1 = query then results ++ [kv.2] else results) [],
    none)

/-- Go `InMemoryMemory.Forget`. -/
def InMemoryMemory.Forget (m : InMemoryMemory) (key : String) :
    InMemoryMemory × Option GoError :=
  ({ store := m.store.erase key }, none)

/-- Go `InMemoryMemory.ListKeys`. -/
def InMemoryMemory.ListKeys (m : InMemoryMemory) : List String × Option GoError :=
  (m.store.entries.foldl (fun keys kv => keys ++ [kv.1]) [], none)

/-- The volatile backend as a `MemoryModule`. -/
def InMemoryMemory.module : MemoryModule InMemoryMemory :=
  { Remember := InMemoryMemory.Remember
    Recall := InMemoryMemory.Recall
    Search := InMemoryMemory.Search
    Forget := InMemoryMemory.Forget
    ListKeys := InMemoryMemory.ListKeys }

/-! ## The durable backend (`memory_badger.go`)

The storage engine (`badger.DB`) and the encoder (`encoding/json`) are libraries the
package calls; they are parameters of the model. -/

/-- Go `[]byte`. -/
abbrev Bytes := List UInt8

/-- Go conversion `[]byte(key)`. -/
def bytesOfString (key : String) : Bytes := key.toUTF8.data.toList

/-- The two functions of `encoding/json` the backend calls. `Unmarshal` returns the value
it stores through its pointer argument. -/
structure JSON where
  Marshal : GoAny → Except GoError Bytes
  Unmarshal : Bytes → Except GoError GoAny

/-- The value is storable: encoding it succeeds, and decoding the bytes gives a value
equal to it. -/
def JSON.RoundTrips (json : JSON) (v : GoAny) : Prop :=
  ∃ bs, json.Marshal v = .ok bs ∧ json.Unmarshal bs = .ok v

/-- The transactions the backend runs on a `badger.DB` whose state is `D`: `Update` with
one `Set`, `View` with one `Get` and `Value`, `Update` with one `Delete`, and the
iteration `View` runs over all items. -/
structure Engine (D : Type) where
  updateSet : D → Bytes → Bytes → D × Option GoError
  viewGet : D → Bytes → Except GoError Bytes
  updateDelete : D → Bytes → D × Option GoError
  viewItems : D → Except GoError (List (Bytes × Bytes))

/-- Go `badger.ErrKeyNotFound`. -/
def ErrKeyNotFound : GoError := { msg := "Key not found" }

/-- The contract of the storage engine the round trip relies on: a committed `Set` is
what a later `Get` of that key reads, and after a committed `Delete` a `Get` of that key
fails with `ErrKeyNotFound`. -/
structure Engine.Lawful {D : Type} (eng : Engine D) : Prop where
  get_set : ∀ (d d' : D) (k v : Bytes), eng.updateSet d k v = (d', none) → eng.viewGet d' k = .ok v
  get_delete : ∀ (d d' : D) (k : Bytes),
    eng.updateDelete d k = (d', none) → eng.viewGet d' k = .error ErrKeyNotFound

/-- Go `BadgerMemory`. -/
structure BadgerMemory (D : Type) where
  db : D

/-- Go `BadgerMemory.Remember`. -/
def BadgerMemory.Remember {D : Type} (json : JSON) (eng : Engine D) (m : BadgerMemory D)
    (key : String) (value : GoAny) : BadgerMemory D × Option GoError :=
  match json.Marshal value with
  | .error err => (m, some err)
  | .ok valBytes =>
    let r := eng.updateSet m.db (bytesOfString key) valBytes
    ({ db := r.1 }, r.2)

/-- Go `BadgerMemory.Recall`. -/
def BadgerMemory.Recall {D : Type} (json : JSON) (eng : Engine D) (m : BadgerMemory D)
    (key : String) : GoAny × Option GoError :=
  match eng.viewGet m.db (bytesOfString key) with
  | .error err => (GoAny.nil, some err)
  | .ok v =>
    match json.Unmarshal v with
    | .error err => (GoAny.nil, some err)
    | .ok val => (val, none)

/-- Go `BadgerMemory.Forget`. -/
def BadgerMemory.Forget {D : Type} (eng : Engine D) (m : BadgerMemory D) (key : String) :
    BadgerMemory D × Option GoError :=
  let r := eng.updateDelete m.db (bytesOfString key)
  ({ db := r.1 }, r.2)

/-- An engine that keeps its items in memory and never fails: the one used to run the
durable backend on examples. -/
def memEngine : Engine (AList (fun _ : Bytes => Bytes)) :=
  { updateSet := fun d k v => (d.insert k v, none)
    viewGet := fun d k =>
      match d.lookup k with
      | some v => .ok v
      | none => .error ErrKeyNotFound
    updateDelete := fun d k => (d.erase k, none)
    viewItems := fun d => .ok (d.entries.map (fun kv => (kv.1, kv.2))) }

/-- The JSON encoding of `nil` and of the booleans, which is all the examples need:
`null`, `true`, `false`. Other values are out of its domain. -/
def jsonAtoms : JSON :=
  { Marshal := fun v =>
      match v with
      | GoAny.nil => .ok (bytesOfString "null")
      | GoAny.bool true => .ok (bytesOfString "true")
      | GoAny.bool false => .ok (bytesOfString "false")
      | _ => .error { msg := "json: unsupported value" }
    Unmarshal := fun bs =>
      if bs = bytesOfString "null" then .ok GoAny.nil
      else if bs = bytesOfString "true" then .ok (GoAny.bool true)
      else if bs = bytesOfString "false" then .ok (GoAny.bool false)
      else .error { msg := "json: invalid input" } }

/-! ## Runs of calls -/

/-- A call of one of the methods of the volatile backend. -/
inductive MemOp where
  | Remember (key : String) (value : GoAny)
  | Recall (key : String)
  | Search (query : String)
  | Forget (key : String)
  | ListKeys
  deriving DecidableEq, Repr

/-- The store after the call. `Recall`, `Search` and `ListKeys` take the read lock and
assign to nothing. -/
def InMemoryMemory.apply (m : InMemoryMemory) : MemOp → InMemoryMemory
  | .Remember key value => (m.Remember key value).1
  | .Forget key => (m.Forget key).1
  | .Recall _ => m
  | .Search _ => m
  | .ListKeys => m

/-- The store after a sequence of calls. -/
def InMemoryMemory.run (m : InMemoryMemory) (ops : List MemOp) : InMemoryMemory :=
  ops.foldl InMemoryMemory.apply m

/-- One step of a program using a Brain: a call of a public method, or one run of a
reflection task started earlier. -/
inductive BrainStep where
  | call (op : BrainOp)
  | task (now1 now2 : Time)

/-- The Brain after the step. -/
def Brain.step {S L : Type} (lt : MemoryModule L) (fmt : TimeFormat) (b : Brain S L) :
    BrainStep → Brain S L
  | .call op => (b.apply lt fmt op).1
  | .task now1 now2 => (b.reflectAndReport fmt now1 now2).1

/-- The Brain after a sequence of steps. -/
def Brain.run {S L : Type} (lt : MemoryModule L) (fmt : TimeFormat) (b : Brain S L)
    (steps : List BrainStep) : Brain S L :=
  steps.foldl (Brain.step lt fmt) b

/-! ## The conversation module (`module_conversation.go`) and its wiring
(`agent/brain_integration.go`) -/

/-- A Go run-time panic. -/
structure GoPanic where
  msg : String
  deriving DecidableEq, Repr

/-- Go `ConversationModule`, without the mutex; `OnAdd` holds the identity of the
callback, `none` for `nil`. -/
structure ConversationModule where
  messages : List String
  OnAdd : Option Nat
  deriving DecidableEq, Repr

/-- Go `NewConversationModule`. -/
def NewConversationModule : ConversationModule := { messages := [], OnAdd := none }

/-- Go `ConversationModule.AddMessage`: the module after the call and the callback runs
it starts with `go m.OnAdd(msg)`, each with its argument. -/
def ConversationModule.AddMessage (m : ConversationModule) (msg : String) :
    ConversationModule × List (Nat × String) :=
  let m1 := { m with messages := m.messages ++ [msg] }
  match m1.OnAdd with
  | some f => (m1, [(f, msg)])
  | none => (m1, [])

/-- Go `ConversationModule.GetHistory`. The slice expression `m.messages[low:]` panics
unless `0 <= low <= len(m.messages)`. -/
def ConversationModule.GetHistory (m : ConversationModule) (n : Int) :
    Except GoPanic (List String) :=
  let len : Int := m.messages.length
  let n1 := if n > len then len else n
  let low := wrapInt (len - n1)
  if 0 ≤ low ∧ low ≤ len then .ok (m.messages.drop low.toNat)
  else .error { msg := "slice bounds out of range" }

/-- The closure `NewAgentBrain` assigns to `conv.OnAdd`, run on the module state `conv`
and the Brain `b`: the outcome of its `LogEvent`, and whether it executes
`go b.Summarize()`. A panic is recovered by the deferred function, which ends the run. -/
def NewAgentBrain.OnAdd {S L : Type} (conv : ConversationModule) (b : Brain S L) (now : Time)
    (msg : String) : Outcome S L × Bool :=
  let r := b.LogEvent now "conversation_message" (GoAny.str msg)
  match conv.GetHistory 20 with
  | .ok history => (r, decide (history.length % 10 = 0))
  | .error _ => (r, false)

/-! ## The media store (`media/store.go`) -/

/-- Go `MediaMeta`. -/
structure MediaMeta where
  Filename : String
  ContentType : String
  Source : String
  deriving DecidableEq, Repr

/-- Go `mediaEntry`. -/
structure mediaEntry where
  path : String
  meta : MediaMeta
  storedAt : Time
  deriving DecidableEq, Repr

/-- Go `MediaCleanerConfig`; a `time.Duration` is an `Int`. -/
structure MediaCleanerConfig where
  Enabled : Bool
  MaxAge : Int
  Interval : Int
  deriving DecidableEq, Repr

/-- Go `FileMediaStore`, without the mutex and the fields of the background goroutine.
A `map[string]struct{}` is a `GoMap Unit`; `nowFunc()` is an input of the calls. -/
structure FileMediaStore where
  refs : GoMap mediaEntry
  scopeToRefs : GoMap (GoMap Unit)
  refToScope : GoMap String
  cleanerCfg : MediaCleanerConfig

/-- Go `NewFileMediaStore`. -/
def NewFileMediaStore : FileMediaStore :=
  { refs := ∅, scopeToRefs := ∅, refToScope := ∅
    cleanerCfg := { Enabled := false, MaxAge := 0, Interval := 0 } }

/-- Go `NewFileMediaStoreWithCleanup`. -/
def NewFileMediaStoreWithCleanup (cfg : MediaCleanerConfig) : FileMediaStore :=
  { refs := ∅, scopeToRefs := ∅, refToScope := ∅, cleanerCfg := cfg }

/-- The files on disk: the paths that exist. -/
abbrev FileSystem := List String

/-- Go `os.Remove` on a file: the files afterwards, and the error for a missing file. -/
def osRemove (fs : FileSystem) (path : String) : FileSystem × Option GoError :=
  if path ∈ fs then (fs.filter (fun p => p ≠ path), none)
  else (fs, some { msg := "remove " ++ path ++ ": no such file or directory" })

/-- What `Store` returns, with the store afterwards. -/
structure StoreResult where
  store : FileMediaStore
  ref : String
  err : Option GoError

/-- Go `FileMediaStore.Store`; `id` is the string of the UUID drawn by `uuid.New()`. -/
def FileMediaStore.Store (s : FileMediaStore) (fs : FileSystem) (id : String) (now : Time)
    (localPath : String) (meta : MediaMeta) (scope : String) : StoreResult :=
  if localPath ∉ fs then
    { store := s, ref := ""
      err := some { msg := "media store: " ++ localPath ++ ": no such file or directory" } }
  else
    let ref := "media://" ++ id
    let refs := s.refs.insert ref { path := localPath, meta := meta, storedAt := now }
    let scopeToRefs1 :=
      match s.scopeToRefs.lookup scope with
      | none => s.scopeToRefs.insert scope ∅
      | some _ => s.scopeToRefs
    let scopeRefs := (scopeToRefs1.lookup scope).getD ∅
    let scopeToRefs2 := scopeToRefs1.insert scope (scopeRefs.insert ref ())
    { store := { s with refs := refs, scopeToRefs := scopeToRefs2
                        refToScope := s.refToScope.insert ref scope }
      ref := ref, err := none }

/-- Go `FileMediaStore.Resolve`. -/
def FileMediaStore.Resolve (s : FileMediaStore) (ref : String) : String × Option GoError :=
  match s.refs.lookup ref with
  | none => ("", some { msg := "media store: unknown ref: " ++ ref })
  | some entry => (entry.path, none)

/-- Go `FileMediaStore.ResolveWithMeta`. -/
def FileMediaStore.ResolveWithMeta (s : FileMediaStore) (ref : String) :
    String × MediaMeta × Option GoError :=
  match s.refs.lookup ref with
  | none => ("", { Filename := "", ContentType := "", Source := "" },
      some { msg := "media store: unknown ref: " ++ ref })
  | some entry => (entry.path, entry.meta, none)

/-- The loop of `ReleaseAll` over the refs of the scope: for a ref that has an entry, the
file is removed (its error dropped) and the ref is deleted from `refs` and `refToScope`. -/
def releaseLoop : List String → GoMap mediaEntry × GoMap String × FileSystem →
    GoMap mediaEntry × GoMap String × FileSystem
  | [], st => st
  | ref :: rest, (refs, refToScope, fs) =>
    match refs.lookup ref with
    | some entry =>
      releaseLoop rest (refs.erase ref, refToScope.erase ref, (osRemove fs entry.path).1)
    | none => releaseLoop rest (refs, refToScope, fs)

/-- Go `FileMediaStore.ReleaseAll`: the store and the files afterwards, and the error. -/
def FileMediaStore.ReleaseAll (s : FileMediaStore) (fs : FileSystem) (scope : String) :
    FileMediaStore × FileSystem × Option GoError :=
  match s.scopeToRefs.lookup scope with
  | none => (s, fs, none)
  | some refs =>
    let r := releaseLoop refs.keys (s.refs, s.refToScope, fs)
    ({ s with refs := r.1, refToScope := r.2.1, scopeToRefs := s.scopeToRefs.erase scope },
      r.2.2, none)

/-- The body of the loop of `CleanExpired` for an expired `ref`, on the maps: the ref is
deleted from the set of its scope, the scope is deleted when its set is then empty, and
the ref is deleted from `refs` and `refToScope`. -/
def FileMediaStore.expireRef (s : FileMediaStore) (ref : String) : FileMediaStore :=
  let scope := (s.refToScope.lookup ref).getD ""
  let scopeToRefs :=
    match s.scopeToRefs.lookup scope with
    | some scopeRefs =>
      if (scopeRefs.erase ref).entries.length = 0 then s.scopeToRefs.erase scope
      else s.scopeToRefs.insert scope (scopeRefs.erase ref)
    | none => s.scopeToRefs
  { s with refs := s.refs.erase ref, refToScope := s.refToScope.erase ref
           scopeToRefs := scopeToRefs }

/-- Phase 1 of `CleanExpired`: the loop over the entries of `refs`, collecting the expired
ones (ref and path). -/
def cleanLoop (cutoff : Int) : List (Sigma (fun _ : String => mediaEntry)) →
    FileMediaStore × List (String × String) → FileMediaStore × List (String × String)
  | [], st => st
  | kv :: rest, (s, expired) =>
    if (kv.2.storedAt : Int) < cutoff then
      cleanLoop cutoff rest (s.expireRef kv.1, expired ++ [(kv.1, kv.2.path)])
    else cleanLoop cutoff rest (s, expired)

/-- Go `FileMediaStore.CleanExpired`: the store and the files afterwards, and the number
of expired entries. -/
def FileMediaStore.CleanExpired (s : FileMediaStore) (fs : FileSystem) (now : Time) :
    FileMediaStore × FileSystem × Int :=
  if s.cleanerCfg.MaxAge ≤ 0 then (s, fs, 0)
  else
    let cutoff := (now : Int) - s.cleanerCfg.MaxAge
    let r := cleanLoop cutoff s.refs.entries (s, [])
    (r.1, r.2.foldl (fun files e => (osRemove files e.2).1) fs, r.2.length)

/-- The stores a program can reach, with the refs issued so far and the scope each was
stored under: built by a constructor, then changed by `Store` (which draws a ref never
issued before), `ReleaseAll` and `CleanExpired`, on whatever files exist at the call. -/
inductive MediaReachable : List (String × String) → FileMediaStore → Prop where
  | new : MediaReachable [] NewFileMediaStore
  | newWithCleanup (cfg : MediaCleanerConfig) : MediaReachable [] (NewFileMediaStoreWithCleanup cfg)
  | store (issued : List (String × String)) (s : FileMediaStore) (fs : FileSystem)
      (id : String) (now : Time) (localPath : String) (meta : MediaMeta) (scope : String) :
      MediaReachable issued s → localPath ∈ fs →
      ("media://" ++ id) ∉ issued.map Prod.fst →
      MediaReachable (("media://" ++ id, scope) :: issued)
        (s.Store fs id now localPath meta scope).store
  | release (issued : List (String × String)) (s : FileMediaStore) (fs : FileSystem)
      (scope : String) :
      MediaReachable issued s → MediaReachable issued (s.ReleaseAll fs scope).1
  | clean (issued : List (String × String)) (s : FileMediaStore) (fs : FileSystem) (now : Time) :
      MediaReachable issued s → MediaReachable issued (s.CleanExpired fs now).1

/-- How the three maps of a media store fit together, given the refs issued so far: a ref
with an entry has a scope, is in the set of that scope and was issued under it; a ref in
the set of a scope has an entry and that scope; no ref was issued twice; and a ref with a
scope has an entry. -/
structure MediaInv (issued : List (String × String)) (s : FileMediaStore) : Prop where
  entry_scoped : ∀ r e, s.refs.lookup r = some e →
    ∃ sc set, s.refToScope.lookup r = some sc ∧ s.scopeToRefs.lookup sc = some set ∧ r ∈ set ∧
      (r, sc) ∈ issued
  set_entry : ∀ sc set r, s.scopeToRefs.lookup sc = some set → r ∈ set →
    r ∈ s.refs ∧ s.refToScope.lookup r = some sc
  issued_once : (issued.map Prod.fst).Nodup
  scope_entry : ∀ r sc, s.refToScope.lookup r = some sc → r ∈ s.refs

/-! ## Concurrent callers of `LogEvent`

Several goroutines call `LogEvent` on one Brain. Every access `LogEvent` makes to the
Brain lies between `b.mu.Lock()` and the deferred `b.mu.Unlock()`, so the callers are free
of data races and an execution is an interleaving of their statements. The append
`b.Timeline = append(b.Timeline, Event{...})` is two steps, the read of `b.Timeline` (with
the clock) and the assignment, so that an update could be lost if two callers were between
them at once. -/

/-- The arguments of one caller. -/
structure LogRequest where
  eventType : String
  data : GoAny
  deriving DecidableEq, Repr

/-- Where a caller stands in the body of `LogEvent`. -/
inductive LogPc where
  /-- Before `b.mu.Lock()`. -/
  | start
  /-- Holding the mutex, before the append. -/
  | locked
  /-- The operands of the append are evaluated: the timeline read and the clock reading. -/
  | read (timeline : List Event) (now : Time)
  /-- After the assignment to `b.Timeline`. -/
  | appended
  /-- After `b.eventCount++`. -/
  | counted
  /-- After the `if`, before the deferred `b.mu.Unlock()`. -/
  | decided
  /-- Returned. -/
  | done
  deriving DecidableEq, Repr

/-- The caller holds the mutex. -/
def LogPc.inCritical : LogPc → Bool
  | .start => false
  | .done => false
  | _ => true

/-- The caller has assigned its event to the timeline. -/
def LogPc.hasAppended : LogPc → Bool
  | .appended => true
  | .counted => true
  | .decided => true
  | .done => true
  | _ => false

/-- The number of statements the caller has executed. -/
def LogPc.rank : LogPc → Nat
  | .start => 0
  | .locked => 1
  | .read _ _ => 2
  | .appended => 3
  | .counted => 4
  | .decided => 5
  | .done => 6

/-- The Brain, its mutex, the position of every caller, and the effects so far. -/
structure ConcState (S L : Type) where
  brain : Brain S L
  locked : Bool
  pcs : List LogPc
  effects : List Effect

/-- All `n` callers before their call, on an unlocked Brain. -/
def ConcState.init {S L : Type} (b : Brain S L) (n : Nat) : ConcState S L :=
  { brain := b, locked := false, pcs := List.replicate n LogPc.start, effects := [] }

/-- Caller `i` executes its next statement, reading the clock as `now` where it does.
A caller at `b.mu.Lock()` while the mutex is held stays blocked, and a caller that has
returned does nothing. -/
def ConcState.step {S L : Type} (reqs : List LogRequest) (st : ConcState S L) (i : Nat)
    (now : Time) : ConcState S L :=
  match st.pcs[i]?, reqs[i]? with
  | some .start, some _ =>
    if st.locked then st
    else { st with locked := true, pcs := st.pcs.set i .locked }
  | some .locked, some _ =>
    { st with pcs := st.pcs.set i (.read st.brain.Timeline now) }
  | some (.read timeline t), some req =>
    { st with brain := { st.brain with
                Timeline := timeline ++ [Event.mk t req.eventType req.data] }
              pcs := st.pcs.set i .appended }
  | some .appended, some _ =>
    { st with brain := { st.brain with eventCount := wrapInt (st.brain.eventCount + 1) }
              pcs := st.pcs.set i .counted }
  | some .counted, some req =>
    if indexBool st.brain.reflectOn req.eventType
        || decide (st.brain.eventCount ≥ st.brain.reflectEvery) then
      { st with brain := { st.brain with eventCount := 0 }
                effects := st.effects ++ [Effect.spawnReflect]
                pcs := st.pcs.set i .decided }
    else { st with pcs := st.pcs.set i .decided }
  | some .decided, some _ =>
    { st with locked := false, pcs := st.pcs.set i .done }
  | _, _ => st

/-- An interleaving: which caller moves next, and the clock reading it would take. -/
def ConcState.run {S L : Type} (reqs : List LogRequest) (st : ConcState S L)
    (schedule : List (Nat × Time)) : ConcState S L :=
  schedule.foldl (fun st x => st.step reqs x.1 x.2) st

/-- The requests of the callers that have assigned their event, in caller order. -/
def appendedRequests : List LogPc → List LogRequest → List LogRequest
  | pc :: pcs, r :: rs =>
    if pc.hasAppended then r :: appendedRequests pcs rs else appendedRequests pcs rs
  | _, _ => []

/-- What holds of every state of an interleaving started on the Brain `b0`: one position
per caller; the mutex is held exactly when a caller is inside, and by one caller only; a
caller between read and assignment has read the current timeline; and the timeline is the
initial one followed by the events of the callers that have assigned, in some order. -/
structure ConcInv {S L : Type} (b0 : Brain S L) (reqs : List LogRequest) (st : ConcState S L) :
    Prop where
  length_eq : st.pcs.length = reqs.length
  lock_iff : st.locked = true ↔
    ∃ (i : Nat) (p : LogPc), st.pcs[i]? = some p ∧ p.inCritical = true
  exclusive : ∀ (i j : Nat) (p q : LogPc), st.pcs[i]? = some p → st.pcs[j]? = some q →
    p.inCritical = true → q.inCritical = true → i = j
  read_current : ∀ (i : Nat) (timeline : List Event) (t : Time),
    st.pcs[i]? = some (LogPc.read timeline t) → timeline = st.brain.Timeline
  timeline : ∃ new, st.brain.Timeline = b0.Timeline ++ new ∧
    (new.map (fun e => (e.Type_, e.Data))).Perm
      ((appendedRequests st.pcs reqs).map (fun r => (r.eventType, r.data)))

/-! ## Example inputs -/

/-- A formatter for examples: the tick count in decimal, with a `t` in front for the
`RFC3339` layout. -/
def sampleFormat : TimeFormat :=
  { rfc3339 := fun t => "t" ++ toString t
    compact := fun t => toString t }

/-- A Brain over a volatile long-term backend with a report callback and three events. -/
def sampleBrain : Brain Unit InMemoryMemory :=
  (((NewBrain () NewInMemoryMemory).SetReportFunc (some 1)).logEvents
    [LogCall.mk 1 "a" GoAny.nil, LogCall.mk 2 "b" GoAny.nil,
      LogCall.mk 3 "inbound_message" (GoAny.str "hi")]).1

/-- A Brain over a volatile long-term backend with 25 events. -/
def sampleLongBrain : Brain Unit InMemoryMemory :=
  ((NewBrain () NewInMemoryMemory).logEvents
    ((List.range 25).map (fun i => LogCall.mk i "tick" GoAny.nil))).1

/-- A backend on which every operation fails. -/
def failingModule : MemoryModule Unit :=
  { Remember := fun s _ _ => (s, some { msg := "disk full" })
    Recall := fun _ _ => (GoAny.nil, some { msg := "disk full" })
    Search := fun _ _ => ([], some { msg := "disk full" })
    Forget := fun s _ => (s, some { msg := "disk full" })
    ListKeys := fun _ => ([], some { msg := "disk full" }) }

/-- A Brain over the failing backend with a report callback and two events. -/
def sampleFailingBrain : Brain Unit Unit :=
  (((NewBrain () ()).SetReportFunc (some 1)).logEvents
    [LogCall.mk 1 "a" GoAny.nil, LogCall.mk 2 "b" GoAny.nil]).1

/-- A conversation module after `n` messages, with a callback set. -/
def sampleConversation (n : Nat) : ConversationModule :=
  (List.replicate n "m").foldl (fun conv msg => (conv.AddMessage msg).1)
    { NewConversationModule with OnAdd := some 1 }

/-- A media store with `media://1` and `media://2` under scope `chat-a` and `media://3`
under scope `chat-b`, on the files `/tmp/1`, `/tmp/2`, `/tmp/3`. -/
def sampleMediaStore : FileMediaStore :=
  (((NewFileMediaStoreWithCleanup { Enabled := true, MaxAge := 100, Interval := 10 }).Store
      ["/tmp/1", "/tmp/2", "/tmp/3"] "1" 10 "/tmp/1" (MediaMeta.mk "1.png" "image/png" "telegram")
      "chat-a").store.Store
      ["/tmp/1", "/tmp/2", "/tmp/3"] "2" 20 "/tmp/2" (MediaMeta.mk "2.png" "image/png" "telegram")
      "chat-a").store.Store
      ["/tmp/1", "/tmp/2", "/tmp/3"] "3" 30 "/tmp/3" (MediaMeta.mk "3.ogg" "audio/ogg" "discord")
      "chat-b" |>.store

/-- Three concurrent callers. -/
def sampleRequests : List LogRequest :=
  [LogRequest.mk "a" GoAny.nil, LogRequest.mk "b" GoAny.nil,
    LogRequest.mk "inbound_message" (GoAny.str "hi")]

/-- An interleaving of the three callers: caller 1 locks first; callers 0 and 2 try to
lock while it is inside and stay blocked; caller 2 gets the mutex before caller 0. -/
def sampleSchedule : List (Nat × Time) :=
  [(1, 1), (0, 2), (1, 3), (2, 4), (1, 5), (1, 6), (0, 7), (1, 8), (1, 9), (2, 10), (2, 11),
    (0, 12), (2, 13), (2, 14), (2, 15), (2, 16), (0, 17), (0, 18), (0, 19), (0, 20), (0, 21),
    (0, 22)]

/-! ## Integer helpers -/

theorem wrapInt_of_isInt {x : Int} (h : IsInt x) : wrapInt x = x := by
  unfold IsInt minInt maxInt at h
  unfold wrapInt
  omega

/-! ## Reflection scheduling -/

section Scheduler

variable {S L : Type}

theorem LogEvent_effects_cases (b : Brain S L) (now : Time) (ty : String) (d : GoAny) :
    (b.LogEvent now ty d).effects = [Effect.spawnReflect] ∨ (b.LogEvent now ty d).effects = [] := by
  unfold Brain.LogEvent
  dsimp only
  split
  · exact Or.inl rfl
  · exact Or.inr rfl

/-- One untriggering-type call from a counter below the threshold. -/
theorem LogEvent_plain (b : Brain S L) (now : Time) (ty : String) (d : GoAny)
    (hty : indexBool b.reflectOn ty = false) (h0 : 0 ≤ b.eventCount)
    (hlt : b.eventCount < b.reflectEvery) (hmax : b.reflectEvery ≤ maxInt) :
    (b.LogEvent now ty d).brain.reflectEvery = b.reflectEvery ∧
    (b.LogEvent now ty d).brain.reflectOn = b.reflectOn ∧
    ((b.eventCount + 1 = b.reflectEvery ∧ (b.LogEvent now ty d).effects = [Effect.spawnReflect] ∧
        (b.LogEvent now ty d).brain.eventCount = 0) ∨
     (b.eventCount + 1 < b.reflectEvery ∧ (b.LogEvent now ty d).effects = [] ∧
        (b.LogEvent now ty d).brain.eventCount = b.eventCount + 1)) := by
  have hw : wrapInt (b.eventCount + 1) = b.eventCount + 1 :=
    wrapInt_of_isInt (by unfold IsInt minInt maxInt; unfold maxInt at hmax; omega)
  unfold Brain.LogEvent
  dsimp only
  rw [hty, hw]
  by_cases hge : b.eventCount + 1 ≥ b.reflectEvery
  · have hc : (false || decide (b.eventCount + 1 ≥ b.reflectEvery)) = true := by simp [hge]
    rw [if_pos hc]
    exact ⟨rfl, rfl, Or.inl ⟨by omega, rfl, rfl⟩⟩
  · have hc : ¬ (false || decide (b.eventCount + 1 ≥ b.reflectEvery)) = true := by simp [hge]
    rw [if_neg hc]
    exact ⟨rfl, rfl, Or.inr ⟨by omega, rfl, rfl⟩⟩

theorem logEvents_plain (calls : List LogCall) :
    ∀ (b : Brain S L), (∀ c ∈ calls, indexBool b.reflectOn c.eventType = false) →
      0 ≤ b.eventCount → b.eventCount < b.reflectEvery → b.reflectEvery ≤ maxInt →
      (((b.logEvents calls).2.1.count Effect.spawnReflect : Nat) : Int)
          = (b.eventCount + calls.length) / b.reflectEvery ∧
      (b.logEvents calls).1.eventCount = (b.eventCount + calls.length) % b.reflectEvery := by
  induction calls with
  | nil =>
    intro b _ h0 hlt _
    simp only [Brain.logEvents, List.count_nil, List.length_nil, Nat.cast_zero, add_zero]
    exact ⟨(Int.ediv_eq_zero_of_lt h0 hlt).symm, (Int.emod_eq_of_lt h0 hlt).symm⟩
  | cons c cs ih =>
    intro b hty h0 hlt hmax
    obtain ⟨hT, hOn, hcase⟩ := LogEvent_plain b c.now c.eventType c.data
      (hty c (List.mem_cons_self _ _)) h0 hlt hmax
    have hty' : ∀ c' ∈ cs, indexBool (b.LogEvent c.now c.eventType c.data).brain.reflectOn c'.eventType = false := by
      intro c' hc'
      rw [hOn]
      exact hty c' (List.mem_cons_of_mem _ hc')
    simp only [Brain.logEvents, List.length_cons, Nat.cast_add, Nat.cast_one, List.count_append]
    rcases hcase with ⟨heq, heff, hcnt⟩ | ⟨hlt', heff, hcnt⟩
    · obtain ⟨ih1, ih2⟩ := ih _ hty' (by rw [hcnt]) (by rw [hcnt, hT]; omega) (by rw [hT]; exact hmax)
      rw [hcnt, hT] at ih1 ih2
      rw [heff, ih2]
      have e : b.eventCount + ((cs.length : Int) + 1) = (0 + (cs.length : Int)) + b.reflectEvery * 1 := by
        omega
      have hne : b.reflectEvery ≠ 0 := by omega
      rw [e, Int.add_mul_ediv_left _ _ hne, Int.add_mul_emod_self_left]
      refine ⟨?_, rfl⟩
      simp only [List.count_cons_self, List.count_nil, Nat.cast_add, Nat.cast_one]
      rw [ih1]
      omega
    · obtain ⟨ih1, ih2⟩ := ih _ hty' (by rw [hcnt]; omega) (by rw [hcnt, hT]; exact hlt')
        (by rw [hT]; exact hmax)
      rw [hcnt, hT] at ih1 ih2
      rw [heff, ih2]
      have e : b.eventCount + ((cs.length : Int) + 1) = b.eventCount + 1 + (cs.length : Int) := by
        omega
      rw [e]
      refine ⟨?_, rfl⟩
      simp only [List.count_nil, Nat.cast_zero, zero_add]
      rw [ih1]

/-- C1. From counter 0 with threshold `T ≥ 1`, `N` calls of `LogEvent` whose types do not
trigger start `N / T` reflection tasks and leave the counter at `N mod T`. -/
theorem threshold_schedule (b : Brain S L) (T : Int) (calls : List LogCall)
    (hT : 1 ≤ T) (hTmax : T ≤ maxInt) (hthr : b.reflectEvery = T) (hcnt : b.eventCount = 0)
    (hty : ∀ c ∈ calls, indexBool b.reflectOn c.eventType = false) :
    (((b.logEvents calls).2.1.count Effect.spawnReflect : Nat) : Int) = (calls.length : Int) / T ∧
    (b.logEvents calls).1.eventCount = (calls.length : Int) % T := by
  have h := logEvents_plain calls b hty (by rw [hcnt]) (by rw [hcnt, hthr]; omega)
    (by rw [hthr]; exact hTmax)
  rw [hcnt, hthr, zero_add] at h
  exact h

/-- Nine heartbeats on a fresh Brain start no task and leave the counter at 9. -/
theorem threshold_schedule_witness :
    (((((NewBrain () () : Brain Unit Unit).logEvents
        (List.replicate 9 (LogCall.mk 0 "heartbeat" GoAny.nil))).2.1.count Effect.spawnReflect : Nat) : Int)
      = ((List.replicate 9 (LogCall.mk 0 "heartbeat" GoAny.nil)).length : Int) / 10) ∧
    ((NewBrain () () : Brain Unit Unit).logEvents
        (List.replicate 9 (LogCall.mk 0 "heartbeat" GoAny.nil))).1.eventCount
      = ((List.replicate 9 (LogCall.mk 0 "heartbeat" GoAny.nil)).length : Int) % 10 :=
  threshold_schedule (NewBrain () ()) 10 (List.replicate 9 (LogCall.mk 0 "heartbeat" GoAny.nil))
    (by decide) (by decide) rfl rfl (by decide)

/-- What `Summarize` leaves alone. -/
theorem Summarize_frame (lt : MemoryModule L) (fmt : TimeFormat) (b : Brain S L) (now : Time) :
    (b.Summarize lt fmt now).brain.eventCount = b.eventCount ∧
    (b.Summarize lt fmt now).brain.reflectEvery = b.reflectEvery ∧
    (b.Summarize lt fmt now).brain.reflectOn = b.reflectOn ∧
    (b.Summarize lt fmt now).brain.ReportFunc = b.ReportFunc ∧
    (b.Summarize lt fmt now).brain.modules = b.modules := by
  unfold Brain.Summarize
  split
  · exact ⟨rfl, rfl, rfl, rfl, rfl⟩
  · exact ⟨rfl, rfl, rfl, rfl, rfl⟩

/-- The counter after `LogEvent`, whatever the state before. -/
theorem LogEvent_count (b : Brain S L) (now : Time) (ty : String) (d : GoAny) :
    (b.LogEvent now ty d).brain.reflectEvery = b.reflectEvery ∧
    (((b.LogEvent now ty d).effects = [Effect.spawnReflect] ∧
        (b.LogEvent now ty d).brain.eventCount = 0 ∧
        (indexBool b.reflectOn ty = true ∨ wrapInt (b.eventCount + 1) ≥ b.reflectEvery)) ∨
     ((b.LogEvent now ty d).effects = [] ∧
        (b.LogEvent now ty d).brain.eventCount = wrapInt (b.eventCount + 1) ∧
        indexBool b.reflectOn ty = false ∧ wrapInt (b.eventCount + 1) < b.reflectEvery)) := by
  unfold Brain.LogEvent
  dsimp only
  split
  · rename_i h
    refine ⟨rfl, Or.inl ⟨rfl, rfl, ?_⟩⟩
    simpa using h
  · rename_i h
    refine ⟨rfl, Or.inr ⟨rfl, rfl, ?_⟩⟩
    simpa using h

/-- In every reachable state the counter is a non-negative `int` that can be incremented
without overflow, and the threshold is an `int`. -/
theorem Reachable.counter_bounds {lt : MemoryModule L} {fmt : TimeFormat} {b : Brain S L}
    (hb : Reachable lt fmt b) :
    0 ≤ b.eventCount ∧ b.eventCount < maxInt ∧ IsInt b.reflectEvery := by
  induction hb with
  | init s l =>
    show (0 : Int) ≤ 0 ∧ (0 : Int) < maxInt ∧ IsInt 10
    decide
  | call b op _ hop ih =>
    obtain ⟨h0, h1, h2⟩ := ih
    cases op with
    | logEvent now ty d =>
      have hw : wrapInt (b.eventCount + 1) = b.eventCount + 1 :=
        wrapInt_of_isInt (by unfold IsInt minInt maxInt; unfold maxInt at h1; omega)
      obtain ⟨hT, hc⟩ := LogEvent_count b now ty d
      simp only [Brain.apply]
      rw [hT]
      rcases hc with ⟨_, hz, _⟩ | ⟨_, hz, _, hlt⟩
      · rw [hz]
        exact ⟨le_refl 0, by decide, h2⟩
      · rw [hz, hw]
        rw [hw] at hlt
        have := h2.2
        exact ⟨by omega, by omega, h2⟩
    | summarize now =>
      obtain ⟨e1, e2, _⟩ := Summarize_frame lt fmt b now
      simp only [Brain.apply]
      rw [e1, e2]
      exact ⟨h0, h1, h2⟩
    | setReflectionFrequency n => exact ⟨h0, h1, hop⟩
    | setReflectionEvents events => exact ⟨h0, h1, h2⟩
    | setReportFunc f => exact ⟨h0, h1, h2⟩
    | registerModule name module => exact ⟨h0, h1, h2⟩
    | getModule name => exact ⟨h0, h1, h2⟩
  | task b now1 now2 _ ih =>
    unfold Brain.reflectAndReport
    dsimp only
    split
    · exact ih
    · exact ih

/-- C2. A `LogEvent` whose type is in the trigger set starts exactly one reflection task
and leaves the counter at 0, whatever the counter and the threshold were. In every
reachable state a `LogEvent` starts a task exactly when the type triggers or the
incremented counter has reached the threshold, the counter afterwards is 0 exactly when a
task was started, and it is the prior counter plus one otherwise. -/
theorem trigger_resets_counter (lt : MemoryModule L) (fmt : TimeFormat) (b : Brain S L)
    (now : Time) (ty : String) (d : GoAny) :
    (indexBool b.reflectOn ty = true →
      (b.LogEvent now ty d).effects = [Effect.spawnReflect] ∧
      (b.LogEvent now ty d).brain.eventCount = 0) ∧
    (Reachable lt fmt b →
      (((b.LogEvent now ty d).effects = [Effect.spawnReflect]) ↔
        (indexBool b.reflectOn ty = true ∨ b.eventCount + 1 ≥ b.reflectEvery)) ∧
      ((b.LogEvent now ty d).brain.eventCount = 0 ↔
        (b.LogEvent now ty d).effects = [Effect.spawnReflect]) ∧
      ((b.LogEvent now ty d).effects ≠ [Effect.spawnReflect] →
        (b.LogEvent now ty d).effects = [] ∧
        (b.LogEvent now ty d).brain.eventCount = b.eventCount + 1)) := by
  obtain ⟨_, hc⟩ := LogEvent_count b now ty d
  constructor
  · intro hty
    rcases hc with ⟨he, hz, _⟩ | ⟨_, _, hf, _⟩
    · exact ⟨he, hz⟩
    · rw [hty] at hf
      exact absurd hf (by decide)
  · intro hb
    obtain ⟨h0, h1, _⟩ := hb.counter_bounds
    have hw : wrapInt (b.eventCount + 1) = b.eventCount + 1 :=
      wrapInt_of_isInt (by unfold IsInt minInt maxInt; unfold maxInt at h1; omega)
    rw [hw] at hc
    rcases hc with ⟨he, hz, hor⟩ | ⟨he, hz, hf, hlt⟩
    · refine ⟨⟨fun _ => hor, fun _ => he⟩, ⟨fun _ => he, fun _ => hz⟩, fun hne => absurd he hne⟩
    · have hne : (b.LogEvent now ty d).effects ≠ [Effect.spawnReflect] := by
        rw [he]
        exact List.noConfusion
      refine ⟨⟨fun h => absurd h hne, ?_⟩, ⟨?_, fun h => absurd h hne⟩, fun _ => ⟨he, hz⟩⟩
      · intro hor
        rcases hor with hty | hge
        · rw [hty] at hf
          exact absurd hf (by decide)
        · omega
      · intro hzero
        rw [hz] at hzero
        omega

/-- On a fresh Brain one `inbound_message` starts one task and leaves the counter at 0;
one `heartbeat` starts none and leaves the counter at 1. -/
theorem trigger_resets_counter_witness :
    (((NewBrain () NewInMemoryMemory).LogEvent 5 "inbound_message" (GoAny.str "hi")).effects
        = [Effect.spawnReflect] ∧
      ((NewBrain () NewInMemoryMemory).LogEvent 5 "inbound_message" (GoAny.str "hi")).brain.eventCount
        = 0) ∧
    (((NewBrain () NewInMemoryMemory).LogEvent 5 "heartbeat" GoAny.nil).effects = [] ∧
      ((NewBrain () NewInMemoryMemory).LogEvent 5 "heartbeat" GoAny.nil).brain.eventCount
        = (NewBrain () NewInMemoryMemory).eventCount + 1) :=
  ⟨(trigger_resets_counter InMemoryMemory.module (TimeFormat.mk toString toString)
      (NewBrain () NewInMemoryMemory) 5 "inbound_message" (GoAny.str "hi")).1 (by decide),
   ((trigger_resets_counter InMemoryMemory.module (TimeFormat.mk toString toString)
      (NewBrain () NewInMemoryMemory) 5 "heartbeat" GoAny.nil).2
        (Reachable.init () NewInMemoryMemory)).2.2 (by decide)⟩

end Scheduler

/-! ## The timeline -/

section Timeline

variable {S L : Type}

theorem LogEvent_timeline (b : Brain S L) (now : Time) (ty : String) (d : GoAny) :
    (b.LogEvent now ty d).brain.Timeline = b.Timeline ++ [Event.mk now ty d] ∧
    (b.LogEvent now ty d).err = none := by
  unfold Brain.LogEvent
  dsimp only
  split
  · exact ⟨rfl, rfl⟩
  · exact ⟨rfl, rfl⟩

theorem logEvents_timeline (calls : List LogCall) :
    ∀ (b : Brain S L), (b.logEvents calls).1.Timeline = b.Timeline ++ calls.map LogCall.event ∧
      (b.logEvents calls).2.2 = List.replicate calls.length none := by
  induction calls with
  | nil =>
    intro b
    simp [Brain.logEvents]
  | cons c cs ih =>
    intro b
    obtain ⟨h1, h2⟩ := ih (b.LogEvent c.now c.eventType c.data).brain
    obtain ⟨e1, e2⟩ := LogEvent_timeline b c.now c.eventType c.data
    simp only [Brain.logEvents, List.map_cons, List.length_cons, List.replicate_succ]
    rw [h1, h2, e1, e2, List.append_assoc]
    exact ⟨rfl, rfl⟩

/-- C3. After `n` calls of `LogEvent` the timeline is the prior timeline followed by the
`n` events of the calls, in call order; every call returns `nil`; and the timeline after
any first part of the calls is an initial segment of the final timeline. -/
theorem timeline_appends_in_order (b : Brain S L) (calls : List LogCall) :
    (b.logEvents calls).1.Timeline
      = b.Timeline ++ calls.map (fun c => Event.mk c.now c.eventType c.data) ∧
    (b.logEvents calls).2.2 = List.replicate calls.length none ∧
    (∀ first later : List LogCall, calls = first ++ later →
      (b.logEvents first).1.Timeline <+: (b.logEvents calls).1.Timeline) := by
  refine ⟨(logEvents_timeline calls b).1, (logEvents_timeline calls b).2, ?_⟩
  intro first later hsplit
  rw [(logEvents_timeline calls b).1, (logEvents_timeline first b).1, hsplit, List.map_append,
    ← List.append_assoc]
  exact List.prefix_append _ _

/-- C4. `LogEvent` makes the timeline one longer, `Summarize` makes it empty, and every
other method leaves the timeline as it was. -/
theorem timeline_length_steps (lt : MemoryModule L) (fmt : TimeFormat) (b : Brain S L) :
    (∀ now ty d, (b.apply lt fmt (.logEvent now ty d)).1.Timeline.length = b.Timeline.length + 1) ∧
    (∀ now, (b.apply lt fmt (.summarize now)).1.Timeline.length = 0) ∧
    (∀ n, (b.apply lt fmt (.setReflectionFrequency n)).1.Timeline = b.Timeline) ∧
    (∀ events, (b.apply lt fmt (.setReflectionEvents events)).1.Timeline = b.Timeline) ∧
    (∀ f, (b.apply lt fmt (.setReportFunc f)).1.Timeline = b.Timeline) ∧
    (∀ name module, (b.apply lt fmt (.registerModule name module)).1.Timeline = b.Timeline) ∧
    (∀ name, (b.apply lt fmt (.getModule name)).1.Timeline = b.Timeline) ∧
    (∀ op, (b.apply lt fmt op).1.Timeline.length < b.Timeline.length →
      (∃ now, op = .summarize now) ∧ (b.apply lt fmt op).1.Timeline.length = 0) := by
  have hlog : ∀ now ty d,
      (b.apply lt fmt (.logEvent now ty d)).1.Timeline.length = b.Timeline.length + 1 := by
    intro now ty d
    simp only [Brain.apply]
    rw [(LogEvent_timeline b now ty d).1, List.length_append]
    rfl
  have hsum : ∀ now, (b.apply lt fmt (.summarize now)).1.Timeline.length = 0 := by
    intro now
    simp only [Brain.apply]
    unfold Brain.Summarize
    split
    · rename_i h
      exact h
    · rfl
  refine ⟨hlog, hsum, fun _ => rfl, fun _ => rfl, fun _ => rfl, fun _ _ => rfl, fun _ => rfl, ?_⟩
  intro op hlt
  cases op with
  | logEvent now ty d =>
    rw [hlog] at hlt
    omega
  | summarize now => exact ⟨⟨now, rfl⟩, hsum now⟩
  | setReflectionFrequency n => exact absurd hlt (lt_irrefl _)
  | setReflectionEvents events => exact absurd hlt (lt_irrefl _)
  | setReportFunc f => exact absurd hlt (lt_irrefl _)
  | registerModule name module => exact absurd hlt (lt_irrefl _)
  | getModule name => exact absurd hlt (lt_irrefl _)

/-- A Brain with three events and a report callback still ends a `Summarize` with an
empty timeline. -/
theorem timeline_length_steps_witness :
    ((((NewBrain () NewInMemoryMemory).logEvents
        [LogCall.mk 1 "a" GoAny.nil, LogCall.mk 2 "b" GoAny.nil, LogCall.mk 3 "c" GoAny.nil]).1.apply
          InMemoryMemory.module (TimeFormat.mk toString toString) (.summarize 9)).1.Timeline.length
      < ((NewBrain () NewInMemoryMemory).logEvents
        [LogCall.mk 1 "a" GoAny.nil, LogCall.mk 2 "b" GoAny.nil, LogCall.mk 3 "c" GoAny.nil]).1.Timeline.length) ∧
    ((∃ now, BrainOp.summarize 9 = BrainOp.summarize now) ∧
      (((NewBrain () NewInMemoryMemory).logEvents
        [LogCall.mk 1 "a" GoAny.nil, LogCall.mk 2 "b" GoAny.nil, LogCall.mk 3 "c" GoAny.nil]).1.apply
          InMemoryMemory.module (TimeFormat.mk toString toString) (.summarize 9)).1.Timeline.length = 0) :=
  ⟨by decide,
   (timeline_length_steps InMemoryMemory.module (TimeFormat.mk toString toString)
      ((NewBrain () NewInMemoryMemory).logEvents
        [LogCall.mk 1 "a" GoAny.nil, LogCall.mk 2 "b" GoAny.nil, LogCall.mk 3 "c" GoAny.nil]).1).2.2.2.2.2.2.2
      (.summarize 9) (by decide)⟩

/-- C5. `Summarize` on an empty timeline returns `nil`, emits nothing (no `Remember`, no
call of the report callback) and leaves every field of the Brain, the timeline and the
long-term backend included, as it was. -/
theorem summarize_empty_noop (lt : MemoryModule L) (fmt : TimeFormat) (b : Brain S L)
    (now : Time) (hempty : b.Timeline = []) :
    (b.Summarize lt fmt now).err = none ∧
    (b.Summarize lt fmt now).effects = [] ∧
    (b.Summarize lt fmt now).brain = b ∧
    (b.Summarize lt fmt now).brain.Timeline = [] := by
  unfold Brain.Summarize
  rw [if_pos (by rw [hempty]; rfl)]
  exact ⟨rfl, rfl, rfl, hempty⟩

/-- A fresh Brain with a report callback set: `Summarize` emits nothing. -/
theorem summarize_empty_noop_witness :
    ((NewBrain () NewInMemoryMemory).SetReportFunc (some 1)).Timeline = [] ∧
    ((((NewBrain () NewInMemoryMemory).SetReportFunc (some 1)).Summarize InMemoryMemory.module
        (TimeFormat.mk toString toString) 9).err = none ∧
     (((NewBrain () NewInMemoryMemory).SetReportFunc (some 1)).Summarize InMemoryMemory.module
        (TimeFormat.mk toString toString) 9).effects = [] ∧
     (((NewBrain () NewInMemoryMemory).SetReportFunc (some 1)).Summarize InMemoryMemory.module
        (TimeFormat.mk toString toString) 9).brain
       = (NewBrain () NewInMemoryMemory).SetReportFunc (some 1) ∧
     (((NewBrain () NewInMemoryMemory).SetReportFunc (some 1)).Summarize InMemoryMemory.module
        (TimeFormat.mk toString toString) 9).brain.Timeline = []) :=
  ⟨rfl, summarize_empty_noop InMemoryMemory.module (TimeFormat.mk toString toString)
    ((NewBrain () NewInMemoryMemory).SetReportFunc (some 1)) 9 rfl⟩

end Timeline

/-! ## Summarization -/

section Summarization

variable {S L : Type}

theorem summaryLoop_eq (fmt : TimeFormat) (evs : List Event) :
    ∀ (i : Nat) (summary : String),
      summaryLoop fmt i evs summary
        = summary ++ concatStrings ((evs.take (20 - i)).map (eventLine fmt)) := by
  induction evs with
  | nil =>
    intro i summary
    simp [summaryLoop, concatStrings]
  | cons ev rest ih =>
    intro i summary
    unfold summaryLoop
    by_cases h : i ≥ 20
    · rw [if_pos h]
      have h0 : 20 - i = 0 := by omega
      rw [h0]
      simp [concatStrings]
    · rw [if_neg h, ih]
      have h1 : 20 - i = (20 - (i + 1)) + 1 := by omega
      rw [h1, List.take_succ_cons, List.map_cons]
      simp only [concatStrings]
      rw [String.append_assoc]

/-- The digest of a timeline: the heading and one line for each of the first 20 events. -/
theorem summaryLoop_digest (fmt : TimeFormat) (evs : List Event) :
    summaryLoop fmt 0 evs "Summary of recent events:\n"
      = "Summary of recent events:\n" ++
        concatStrings ((evs.take 20).map (fun ev => fmt.rfc3339 ev.Timestamp ++ ": " ++ ev.Type_ ++ "\n")) :=
  summaryLoop_eq fmt evs 0 _

/-- The steps of `Summarize` on a timeline that is not empty. -/
theorem Summarize_nonempty (lt : MemoryModule L) (fmt : TimeFormat) (b : Brain S L) (now : Time)
    (hne : b.Timeline ≠ []) (digest : String)
    (hd : digest = summaryLoop fmt 0 b.Timeline "Summary of recent events:\n") :
    (b.Summarize lt fmt now).err
        = (lt.Remember b.LongTerm ("summary:" ++ fmt.compact now) (GoAny.str digest)).2 ∧
    (b.Summarize lt fmt now).brain.LongTerm
        = (lt.Remember b.LongTerm ("summary:" ++ fmt.compact now) (GoAny.str digest)).1 ∧
    (b.Summarize lt fmt now).brain.Timeline = [] ∧
    (b.Summarize lt fmt now).effects
        = Effect.remember ("summary:" ++ fmt.compact now) (GoAny.str digest) ::
          ((match (lt.Remember b.LongTerm ("summary:" ++ fmt.compact now) (GoAny.str digest)).2,
              b.ReportFunc with
            | some e, some f => [Effect.report f ("[Brain] Error saving summary: " ++ e.msg)]
            | _, _ => []) ++
           (match b.ReportFunc with
            | some f => [Effect.report f digest]
            | none => [])) := by
  have hlen : ¬ b.Timeline.length = 0 := by
    intro h
    exact hne (List.length_eq_zero.mp h)
  subst hd
  unfold Brain.Summarize
  rw [if_neg hlen]
  exact ⟨rfl, rfl, rfl, rfl⟩

/-- C6. On a timeline of `K` events, `1 ≤ K ≤ 20`, `Summarize` calls `Remember` on the
long-term backend exactly once, under the key `summary:` followed by the compact
timestamp of the call; the value is the heading followed by `K` lines, one per event in
timeline order, each being the event's formatted timestamp, `: `, the event type and a
line break; the timeline is empty afterwards. -/
theorem summarize_small (lt : MemoryModule L) (fmt : TimeFormat) (b : Brain S L) (now : Time)
    (h1 : 1 ≤ b.Timeline.length) (h20 : b.Timeline.length ≤ 20) :
    (b.Summarize lt fmt now).effects.filter Effect.isRemember
      = [Effect.remember ("summary:" ++ fmt.compact now)
          (GoAny.str ("Summary of recent events:\n" ++
            concatStrings (b.Timeline.map
              (fun ev => fmt.rfc3339 ev.Timestamp ++ ": " ++ ev.Type_ ++ "\n"))))] ∧
    (b.Timeline.map (fun ev => fmt.rfc3339 ev.Timestamp ++ ": " ++ ev.Type_ ++ "\n")).length
      = b.Timeline.length ∧
    (b.Summarize lt fmt now).brain.Timeline.length = 0 := by
  have hne : b.Timeline ≠ [] := by
    intro h
    rw [h] at h1
    exact absurd h1 (by decide)
  obtain ⟨_, _, htl, heff⟩ := Summarize_nonempty lt fmt b now hne _ rfl
  rw [summaryLoop_digest, List.take_of_length_le h20] at heff
  rw [heff, htl]
  refine ⟨?_, List.length_map _ _, rfl⟩
  generalize (lt.Remember b.LongTerm _ _).2 = err
  cases err <;> cases b.ReportFunc <;> simp [Effect.isRemember]

/-- The three events of `sampleBrain` give one `Remember` and an empty timeline. -/
theorem summarize_small_witness :
    1 ≤ sampleBrain.Timeline.length ∧ sampleBrain.Timeline.length ≤ 20 ∧
    (sampleBrain.Summarize InMemoryMemory.module sampleFormat 9).effects.filter Effect.isRemember
      = [Effect.remember ("summary:" ++ sampleFormat.compact 9)
          (GoAny.str ("Summary of recent events:\n" ++
            concatStrings (sampleBrain.Timeline.map
              (fun ev => sampleFormat.rfc3339 ev.Timestamp ++ ": " ++ ev.Type_ ++ "\n"))))] ∧
    (sampleBrain.Summarize InMemoryMemory.module sampleFormat 9).brain.Timeline.length = 0 :=
  ⟨by decide, by decide,
   (summarize_small InMemoryMemory.module sampleFormat sampleBrain 9 (by decide) (by decide)).1,
   (summarize_small InMemoryMemory.module sampleFormat sampleBrain 9 (by decide) (by decide)).2.2⟩

/-- C7. On a timeline of more than 20 events the value `Summarize` writes is the heading
followed by the lines of the first 20 events only, in timeline order; the whole timeline
is emptied all the same, and a `Summarize` that follows finds nothing to write. -/
theorem summarize_large (lt : MemoryModule L) (fmt : TimeFormat) (b : Brain S L) (now : Time)
    (hK : 20 < b.Timeline.length) :
    (b.Summarize lt fmt now).effects.filter Effect.isRemember
      = [Effect.remember ("summary:" ++ fmt.compact now)
          (GoAny.str ("Summary of recent events:\n" ++
            concatStrings ((b.Timeline.take 20).map
              (fun ev => fmt.rfc3339 ev.Timestamp ++ ": " ++ ev.Type_ ++ "\n"))))] ∧
    ((b.Timeline.take 20).map
        (fun ev => fmt.rfc3339 ev.Timestamp ++ ": " ++ ev.Type_ ++ "\n")).length = 20 ∧
    (b.Summarize lt fmt now).brain.Timeline = [] ∧
    (∀ later : Time, ((b.Summarize lt fmt now).brain.Summarize lt fmt later).effects = []) := by
  have hne : b.Timeline ≠ [] := by
    intro h
    rw [h] at hK
    exact absurd hK (by decide)
  obtain ⟨_, _, htl, heff⟩ := Summarize_nonempty lt fmt b now hne _ rfl
  rw [summaryLoop_digest] at heff
  refine ⟨?_, ?_, htl, ?_⟩
  · rw [heff]
    generalize (lt.Remember b.LongTerm _ _).2 = err
    cases err <;> cases b.ReportFunc <;> simp [Effect.isRemember]
  · rw [List.length_map, List.length_take]
    omega
  · intro later
    generalize (b.Summarize lt fmt now).brain = b' at htl
    unfold Brain.Summarize
    rw [if_pos (by rw [htl]; rfl)]

theorem sampleLongBrain_length : sampleLongBrain.Timeline.length = 25 := by
  unfold sampleLongBrain
  rw [(logEvents_timeline _ _).1]
  simp [NewBrain]

/-- The 25 events of `sampleLongBrain`: 20 lines written, timeline emptied. -/
theorem summarize_large_witness :
    20 < sampleLongBrain.Timeline.length ∧
    ((sampleLongBrain.Timeline.take 20).map
        (fun ev => sampleFormat.rfc3339 ev.Timestamp ++ ": " ++ ev.Type_ ++ "\n")).length = 20 ∧
    (sampleLongBrain.Summarize InMemoryMemory.module sampleFormat 99).brain.Timeline = [] :=
  ⟨by rw [sampleLongBrain_length]; decide,
   (summarize_large InMemoryMemory.module sampleFormat sampleLongBrain 99
      (by rw [sampleLongBrain_length]; decide)).2.1,
   (summarize_large InMemoryMemory.module sampleFormat sampleLongBrain 99
      (by rw [sampleLongBrain_length]; decide)).2.2.1⟩

/-- C8. On a timeline that is not empty `Summarize` returns what `Remember` returned, the
error `e` or `nil`, and empties the timeline in both cases. With a report callback set it
calls it, after the `Remember`, with the error notice and then the digest when `Remember`
failed, and with the digest alone when it succeeded. -/
theorem summarize_write_error (lt : MemoryModule L) (fmt : TimeFormat) (b : Brain S L)
    (now : Time) (key digest : String) (hne : b.Timeline ≠ [])
    (hkey : key = "summary:" ++ fmt.compact now)
    (hdigest : digest = "Summary of recent events:\n" ++
      concatStrings ((b.Timeline.take 20).map
        (fun ev => fmt.rfc3339 ev.Timestamp ++ ": " ++ ev.Type_ ++ "\n"))) :
    (∀ e : GoError, (lt.Remember b.LongTerm key (GoAny.str digest)).2 = some e →
      (b.Summarize lt fmt now).err = some e ∧
      (b.Summarize lt fmt now).brain.Timeline = [] ∧
      (∀ f, b.ReportFunc = some f →
        (b.Summarize lt fmt now).effects
          = [Effect.remember key (GoAny.str digest),
             Effect.report f ("[Brain] Error saving summary: " ++ e.msg),
             Effect.report f digest]) ∧
      (b.ReportFunc = none →
        (b.Summarize lt fmt now).effects = [Effect.remember key (GoAny.str digest)])) ∧
    ((lt.Remember b.LongTerm key (GoAny.str digest)).2 = none →
      (b.Summarize lt fmt now).err = none ∧
      (b.Summarize lt fmt now).brain.Timeline = [] ∧
      (∀ f, b.ReportFunc = some f →
        (b.Summarize lt fmt now).effects
          = [Effect.remember key (GoAny.str digest), Effect.report f digest]) ∧
      (b.ReportFunc = none →
        (b.Summarize lt fmt now).effects = [Effect.remember key (GoAny.str digest)])) := by
  obtain ⟨herr, _, htl, heff⟩ := Summarize_nonempty lt fmt b now hne digest
    (by rw [hdigest, summaryLoop_digest])
  rw [← hkey] at herr heff
  constructor
  · intro e he
    rw [he] at herr heff
    refine ⟨herr, htl, ?_, ?_⟩
    · intro f hf
      rw [heff, hf]
      rfl
    · intro hf
      rw [heff, hf]
      rfl
  · intro he
    rw [he] at herr heff
    refine ⟨herr, htl, ?_, ?_⟩
    · intro f hf
      rw [heff, hf]
      rfl
    · intro hf
      rw [heff, hf]
      rfl

/-- On the failing backend `Summarize` returns the backend's error, empties the timeline
and reports the notice and then the digest. -/
theorem summarize_write_error_witness :
    sampleFailingBrain.Timeline ≠ [] ∧
    (failingModule.Remember sampleFailingBrain.LongTerm "summary:9"
        (GoAny.str "Summary of recent events:\nt1: a\nt2: b\n")).2 = some (GoError.mk "disk full") ∧
    sampleFailingBrain.ReportFunc = some 1 ∧
    (sampleFailingBrain.Summarize failingModule sampleFormat 9).err = some (GoError.mk "disk full") ∧
    (sampleFailingBrain.Summarize failingModule sampleFormat 9).brain.Timeline = [] ∧
    (sampleFailingBrain.Summarize failingModule sampleFormat 9).effects
      = [Effect.remember "summary:9" (GoAny.str "Summary of recent events:\nt1: a\nt2: b\n"),
         Effect.report 1 ("[Brain] Error saving summary: " ++ (GoError.mk "disk full").msg),
         Effect.report 1 "Summary of recent events:\nt1: a\nt2: b\n"] :=
  ⟨by decide, rfl, rfl,
   ((summarize_write_error failingModule sampleFormat sampleFailingBrain 9 "summary:9"
      "Summary of recent events:\nt1: a\nt2: b\n" (by decide) (by decide) (by decide)).1
      (GoError.mk "disk full") rfl).1,
   ((summarize_write_error failingModule sampleFormat sampleFailingBrain 9 "summary:9"
      "Summary of recent events:\nt1: a\nt2: b\n" (by decide) (by decide) (by decide)).1
      (GoError.mk "disk full") rfl).2.1,
   ((summarize_write_error failingModule sampleFormat sampleFailingBrain 9 "summary:9"
      "Summary of recent events:\nt1: a\nt2: b\n" (by decide) (by decide) (by decide)).1
      (GoError.mk "disk full") rfl).2.2.1 1 rfl⟩

end Summarization

/-! ## The durable backend -/

section Durable

variable {D : Type}

theorem memEngine_lawful : memEngine.Lawful where
  get_set := by
    intro d d' k v h
    have hd : d' = d.insert k v := (congrArg Prod.fst h).symm
    subst hd
    show (match AList.lookup k (d.insert k v) with
      | some v => Except.ok v
      | none => Except.error ErrKeyNotFound) = Except.ok v
    rw [AList.lookup_insert]
  get_delete := by
    intro d d' k h
    have hd : d' = d.erase k := (congrArg Prod.fst h).symm
    subst hd
    show (match AList.lookup k (d.erase k) with
      | some v => Except.ok v
      | none => Except.error ErrKeyNotFound) = Except.error ErrKeyNotFound
    rw [AList.lookup_erase]

/-- C9. On an engine that keeps its contract, for every key `k` and every storable value
`v`: a `Recall(k)` after a successful `Remember(k, v)` returns `v` and no error, and a
`Recall(k)` after a successful `Forget(k)` returns the engine's not-found error. -/
theorem badger_round_trip (json : JSON) (eng : Engine D) (hlaw : eng.Lawful)
    (m : BadgerMemory D) (k : String) (v : GoAny) (hstorable : json.RoundTrips v) :
    (∀ m', BadgerMemory.Remember json eng m k v = (m', none) →
      BadgerMemory.Recall json eng m' k = (v, none)) ∧
    (∀ m', BadgerMemory.Forget eng m k = (m', none) →
      BadgerMemory.Recall json eng m' k = (GoAny.nil, some ErrKeyNotFound)) := by
  obtain ⟨bs, henc, hdec⟩ := hstorable
  constructor
  · intro m' hrem
    unfold BadgerMemory.Remember at hrem
    rw [henc] at hrem
    dsimp only at hrem
    have h1 : m' = { db := (eng.updateSet m.db (bytesOfString k) bs).1 } :=
      (congrArg Prod.fst hrem).symm
    have h2 : (eng.updateSet m.db (bytesOfString k) bs).2 = none := congrArg Prod.snd hrem
    have hget := hlaw.get_set m.db (eng.updateSet m.db (bytesOfString k) bs).1
      (bytesOfString k) bs (Prod.ext rfl h2)
    subst h1
    unfold BadgerMemory.Recall
    dsimp only
    rw [hget]
    dsimp only
    rw [hdec]
  · intro m' hforget
    unfold BadgerMemory.Forget at hforget
    dsimp only at hforget
    have h1 : m' = { db := (eng.updateDelete m.db (bytesOfString k)).1 } :=
      (congrArg Prod.fst hforget).symm
    have h2 : (eng.updateDelete m.db (bytesOfString k)).2 = none := congrArg Prod.snd hforget
    have hget := hlaw.get_delete m.db (eng.updateDelete m.db (bytesOfString k)).1
      (bytesOfString k) (Prod.ext rfl h2)
    subst h1
    unfold BadgerMemory.Recall
    dsimp only
    rw [hget]

/-- On the in-memory engine, `true` stored under `k` is recalled as `true`, and a recall
after forgetting `k` is not-found. -/
theorem badger_round_trip_witness :
    jsonAtoms.RoundTrips (GoAny.bool true) ∧
    BadgerMemory.Recall jsonAtoms memEngine
        (BadgerMemory.Remember jsonAtoms memEngine { db := ∅ } "k" (GoAny.bool true)).1 "k"
      = (GoAny.bool true, none) ∧
    BadgerMemory.Recall jsonAtoms memEngine
        (BadgerMemory.Forget memEngine
          (BadgerMemory.Remember jsonAtoms memEngine { db := ∅ } "k" (GoAny.bool true)).1 "k").1 "k"
      = (GoAny.nil, some ErrKeyNotFound) :=
  ⟨⟨bytesOfString "true", rfl, rfl⟩,
   (badger_round_trip jsonAtoms memEngine memEngine_lawful { db := ∅ } "k" (GoAny.bool true)
      ⟨bytesOfString "true", rfl, rfl⟩).1 _ rfl,
   (badger_round_trip jsonAtoms memEngine memEngine_lawful
      (BadgerMemory.Remember jsonAtoms memEngine { db := ∅ } "k" (GoAny.bool true)).1 "k"
      (GoAny.bool true) ⟨bytesOfString "true", rfl, rfl⟩).2 _ rfl⟩

end Durable

/-! ## The volatile backend -/

section Volatile

theorem foldl_append_keys (l : List (Sigma (fun _ : String => GoAny))) :
    ∀ acc : List String,
      l.foldl (fun keys kv => keys ++ [kv.1]) acc = acc ++ l.map Sigma.fst := by
  induction l with
  | nil =>
    intro acc
    simp
  | cons kv rest ih =>
    intro acc
    rw [List.foldl_cons, ih, List.map_cons, List.append_assoc]
    rfl

/-- The result of `ListKeys` is the list of the keys of the map, each once. -/
theorem ListKeys_eq_keys (m : InMemoryMemory) : m.ListKeys.1 = m.store.keys := by
  unfold InMemoryMemory.ListKeys
  rw [foldl_append_keys]
  rfl

theorem Recall_eq (m : InMemoryMemory) (key : String) :
    m.Recall key = ((m.store.lookup key).getD GoAny.nil, none) := by
  unfold InMemoryMemory.Recall
  cases AList.lookup key m.store <;> rfl

/-- C10. On the volatile backend, whatever the store holds: `Remember(k, v)` returns `nil`
and a `Recall(k)` after it returns `v`; after `Remember(k, v)` and `Remember(k, w)` a
`Recall(k)` returns `w` and `ListKeys` lists `k` once; and `Recall(k')` for another key
`k'` returns the same before and after `Remember(k, v)`. -/
theorem inmemory_remember_recall (m : InMemoryMemory) (k k' : String) (v w : GoAny)
    (hne : k' ≠ k) :
    (m.Remember k v).2 = none ∧
    (m.Remember k v).1.Recall k = (v, none) ∧
    ((m.Remember k v).1.Remember k w).2 = none ∧
    ((m.Remember k v).1.Remember k w).1.Recall k = (w, none) ∧
    ((m.Remember k v).1.Remember k w).1.ListKeys.1.count k = 1 ∧
    (m.Remember k v).1.Recall k' = m.Recall k' := by
  refine ⟨rfl, ?_, rfl, ?_, ?_, ?_⟩
  · rw [Recall_eq]
    simp only [InMemoryMemory.Remember]
    rw [AList.lookup_insert]
    rfl
  · rw [Recall_eq]
    simp only [InMemoryMemory.Remember]
    rw [AList.lookup_insert]
    rfl
  · rw [ListKeys_eq_keys]
    simp only [InMemoryMemory.Remember]
    apply List.count_eq_one_of_mem (AList.keys_nodup _)
    rw [← AList.mem_keys, AList.mem_insert]
    exact Or.inl rfl
  · rw [Recall_eq, Recall_eq]
    simp only [InMemoryMemory.Remember]
    rw [AList.lookup_insert_ne hne]

/-- A store holding `a` and `b`: storing under `a` twice keeps the last value and leaves
`b` alone. -/
theorem inmemory_remember_recall_witness :
    "b" ≠ "a" ∧
    (((NewInMemoryMemory.Remember "a" (GoAny.int 0)).1.Remember "b" (GoAny.int 7)).1.Remember "a"
        (GoAny.int 1)).1.Recall "a" = (GoAny.int 1, none) ∧
    ((((NewInMemoryMemory.Remember "a" (GoAny.int 0)).1.Remember "b" (GoAny.int 7)).1.Remember "a"
        (GoAny.int 1)).1.Remember "a" (GoAny.int 2)).1.Recall "a" = (GoAny.int 2, none) ∧
    ((((NewInMemoryMemory.Remember "a" (GoAny.int 0)).1.Remember "b" (GoAny.int 7)).1.Remember "a"
        (GoAny.int 1)).1.Remember "a" (GoAny.int 2)).1.ListKeys.1.count "a" = 1 ∧
    (((NewInMemoryMemory.Remember "a" (GoAny.int 0)).1.Remember "b" (GoAny.int 7)).1.Remember "a"
        (GoAny.int 1)).1.Recall "b"
      = ((NewInMemoryMemory.Remember "a" (GoAny.int 0)).1.Remember "b" (GoAny.int 7)).1.Recall "b" :=
  ⟨by decide,
   (inmemory_remember_recall
      ((NewInMemoryMemory.Remember "a" (GoAny.int 0)).1.Remember "b" (GoAny.int 7)).1
      "a" "b" (GoAny.int 1) (GoAny.int 2) (by decide)).2.1,
   (inmemory_remember_recall
      ((NewInMemoryMemory.Remember "a" (GoAny.int 0)).1.Remember "b" (GoAny.int 7)).1
      "a" "b" (GoAny.int 1) (GoAny.int 2) (by decide)).2.2.2.1,
   (inmemory_remember_recall
      ((NewInMemoryMemory.Remember "a" (GoAny.int 0)).1.Remember "b" (GoAny.int 7)).1
      "a" "b" (GoAny.int 1) (GoAny.int 2) (by decide)).2.2.2.2.1,
   (inmemory_remember_recall
      ((NewInMemoryMemory.Remember "a" (GoAny.int 0)).1.Remember "b" (GoAny.int 7)).1
      "a" "b" (GoAny.int 1) (GoAny.int 2) (by decide)).2.2.2.2.2⟩

end Volatile

/-! ## The volatile backend: forgetting, searching, listing -/

section VolatileContract

theorem foldl_search (query : String) :
    ∀ (l : List (Sigma (fun _ : String => GoAny))), l.NodupKeys → ∀ acc : List GoAny,
      l.foldl (fun results kv => if kv.1 = query then results ++ [kv.2] else results) acc
        = acc ++ (l.dlookup query).toList := by
  intro l
  induction l with
  | nil =>
    intro _ acc
    simp
  | cons kv rest ih =>
    intro hnd acc
    obtain ⟨hnot, hrest⟩ := List.nodupKeys_cons.mp hnd
    obtain ⟨k, v⟩ := kv
    rw [List.foldl_cons]
    by_cases hk : k = query
    · subst hk
      rw [if_pos rfl, ih hrest, List.dlookup_cons_eq, List.dlookup_eq_none.mpr hnot]
      simp
    · rw [if_neg hk, ih hrest, List.dlookup_cons_ne rest ⟨k, v⟩ (fun h => hk h.symm)]

/-- The result of `Search` is the value stored under the query, if there is one. -/
theorem Search_eq (m : InMemoryMemory) (query : String) :
    m.Search query = ((m.store.lookup query).toList, none) := by
  unfold InMemoryMemory.Search
  rw [foldl_search query m.store.entries m.store.nodupKeys, List.nil_append]
  rfl

theorem erase_absent (s : GoMap GoAny) (k : String) (h : k ∉ s) : s.erase k = s := by
  apply AList.ext
  exact List.kerase_of_not_mem_keys (fun hk => h (AList.mem_keys.mpr hk))

theorem apply_keeps_absent (m : InMemoryMemory) (k : String) (op : MemOp)
    (habs : k ∉ m.store) (hop : ∀ v, op ≠ MemOp.Remember k v) : k ∉ (m.apply op).store := by
  cases op with
  | Remember key value =>
    intro hin
    rcases (AList.mem_insert m.store).mp hin with h | h
    · exact hop value (by rw [h])
    · exact habs h
  | Forget key =>
    intro hin
    exact habs (AList.mem_erase.mp hin).2
  | Recall key => exact habs
  | Search query => exact habs
  | ListKeys => exact habs

theorem run_keeps_absent (k : String) (ops : List MemOp) :
    ∀ m : InMemoryMemory, k ∉ m.store → (∀ v, MemOp.Remember k v ∉ ops) →
      k ∉ (m.run ops).store := by
  induction ops with
  | nil =>
    intro m habs _
    exact habs
  | cons op rest ih =>
    intro m habs hops
    have hop : ∀ v, op ≠ MemOp.Remember k v := by
      intro v heq
      exact hops v (by rw [heq]; exact List.mem_cons_self _ _)
    exact ih (m.apply op) (apply_keeps_absent m k op habs hop)
      (fun v hin => hops v (List.mem_cons_of_mem _ hin))

/-- C11. On the volatile backend `Forget(k)` returns `nil` for every key; it leaves the
store as it was when `k` was absent; after it `k` is not in `ListKeys`, `Search(k)` is
empty and `Recall(k)` finds no entry; every other key keeps its value; and `k` stays
absent through any further calls that do not `Remember` under `k`, while a `Remember`
under `k` stores it again. -/
theorem inmemory_forget (m : InMemoryMemory) (k : String) :
    (m.Forget k).2 = none ∧
    (k ∉ m.store → (m.Forget k).1 = m) ∧
    k ∉ (m.Forget k).1.ListKeys.1 ∧
    (m.Forget k).1.Search k = ([], none) ∧
    ((m.Forget k).1.store.lookup k = none ∧ (m.Forget k).1.Recall k = (GoAny.nil, none)) ∧
    (∀ k', k' ≠ k → (m.Forget k).1.store.lookup k' = m.store.lookup k' ∧
      (m.Forget k).1.Recall k' = m.Recall k') ∧
    (∀ ops : List MemOp, (∀ v, MemOp.Remember k v ∉ ops) →
      k ∉ ((m.Forget k).1.run ops).ListKeys.1 ∧
      ((m.Forget k).1.run ops).Search k = ([], none) ∧
      ((m.Forget k).1.run ops).store.lookup k = none ∧
      ∀ v, (((m.Forget k).1.run ops).apply (MemOp.Remember k v)).store.lookup k = some v) := by
  have hgone : k ∉ (m.Forget k).1.store := fun hin => (AList.mem_erase.mp hin).1 rfl
  have hfacts : ∀ m' : InMemoryMemory, k ∉ m'.store →
      k ∉ m'.ListKeys.1 ∧ m'.Search k = ([], none) ∧ m'.store.lookup k = none := by
    intro m' habs
    have hnone : m'.store.lookup k = none := AList.lookup_eq_none.mpr habs
    refine ⟨?_, ?_, hnone⟩
    · rw [ListKeys_eq_keys]
      exact fun hk => habs (AList.mem_keys.mpr hk)
    · rw [Search_eq, hnone]
      rfl
  obtain ⟨h1, h2, h3⟩ := hfacts _ hgone
  refine ⟨rfl, ?_, h1, h2, ⟨h3, ?_⟩, ?_, ?_⟩
  · intro habs
    show InMemoryMemory.mk (m.store.erase k) = m
    rw [erase_absent m.store k habs]
  · rw [Recall_eq, h3]
    rfl
  · intro k' hne
    have hl : (m.Forget k).1.store.lookup k' = m.store.lookup k' := AList.lookup_erase_ne hne
    refine ⟨hl, ?_⟩
    rw [Recall_eq, Recall_eq, hl]
  · intro ops hops
    obtain ⟨g1, g2, g3⟩ := hfacts _ (run_keeps_absent k ops _ hgone hops)
    exact ⟨g1, g2, g3, fun v => AList.lookup_insert _⟩

/-- A store holding `a` and `b`: after `Forget("a")` and further calls on `b`, `a` is
still absent and `b` has kept its value. -/
theorem inmemory_forget_witness :
    "b" ≠ "a" ∧
    (∀ v, MemOp.Remember "a" v ∉ [MemOp.Remember "b" (GoAny.int 3), MemOp.Forget "c", MemOp.ListKeys]) ∧
    ((((NewInMemoryMemory.Remember "a" (GoAny.int 1)).1.Remember "b" (GoAny.int 2)).1.Forget "a").1.Recall "b"
      = ((NewInMemoryMemory.Remember "a" (GoAny.int 1)).1.Remember "b" (GoAny.int 2)).1.Recall "b") ∧
    "a" ∉ ((((NewInMemoryMemory.Remember "a" (GoAny.int 1)).1.Remember "b" (GoAny.int 2)).1.Forget "a").1.run
        [MemOp.Remember "b" (GoAny.int 3), MemOp.Forget "c", MemOp.ListKeys]).ListKeys.1 :=
  ⟨by decide, by simp,
   ((inmemory_forget ((NewInMemoryMemory.Remember "a" (GoAny.int 1)).1.Remember "b" (GoAny.int 2)).1
      "a").2.2.2.2.2.1 "b" (by decide)).2,
   ((inmemory_forget ((NewInMemoryMemory.Remember "a" (GoAny.int 1)).1.Remember "b" (GoAny.int 2)).1
      "a").2.2.2.2.2.2 [MemOp.Remember "b" (GoAny.int 3), MemOp.Forget "c", MemOp.ListKeys]
      (by simp)).1⟩

/-- C12, counterexample. On the volatile backend `Recall` of the absent key `k` returns
the same as `Recall` of `k` after `nil` was stored under it: the nil value and no error. -/
theorem recall_absent_equals_stored_nil :
    "k" ∉ NewInMemoryMemory.store ∧
    (NewInMemoryMemory.Remember "k" GoAny.nil).1.store.lookup "k" = some GoAny.nil ∧
    NewInMemoryMemory.Recall "k" = (GoAny.nil, none) ∧
    NewInMemoryMemory.Recall "k" = (NewInMemoryMemory.Remember "k" GoAny.nil).1.Recall "k" := by
  decide

/-- C12, amended. On the durable backend `Recall` of a key the engine does not find
returns the engine's not-found error, which differs from the `Recall` of a key whose
stored bytes decode to `nil`, a read without error. On the volatile backend `Recall` of a
key that is not stored returns the nil value and no error. -/
theorem recall_absent_outcome {D : Type} (json : JSON) (eng : Engine D)
    (m m' : BadgerMemory D) (k k' : String) (bs : Bytes) (mem : InMemoryMemory) (key : String)
    (habsent : eng.viewGet m.db (bytesOfString k) = .error ErrKeyNotFound)
    (hstored : eng.viewGet m'.db (bytesOfString k') = .ok bs)
    (hnil : json.Unmarshal bs = .ok GoAny.nil) (hmem : key ∉ mem.store) :
    BadgerMemory.Recall json eng m k = (GoAny.nil, some ErrKeyNotFound) ∧
    BadgerMemory.Recall json eng m' k' = (GoAny.nil, none) ∧
    BadgerMemory.Recall json eng m k ≠ BadgerMemory.Recall json eng m' k' ∧
    mem.Recall key = (GoAny.nil, none) := by
  have h1 : BadgerMemory.Recall json eng m k = (GoAny.nil, some ErrKeyNotFound) := by
    unfold BadgerMemory.Recall
    rw [habsent]
  have h2 : BadgerMemory.Recall json eng m' k' = (GoAny.nil, none) := by
    unfold BadgerMemory.Recall
    rw [hstored]
    dsimp only
    rw [hnil]
  refine ⟨h1, h2, ?_, ?_⟩
  · rw [h1, h2]
    intro h
    exact Option.noConfusion (congrArg Prod.snd h)
  · rw [Recall_eq, AList.lookup_eq_none.mpr hmem]
    rfl

/-- On the in-memory engine: an empty database against one holding `null` under `j`. -/
theorem recall_absent_outcome_witness :
    BadgerMemory.Recall jsonAtoms memEngine { db := ∅ } "k" = (GoAny.nil, some ErrKeyNotFound) ∧
    BadgerMemory.Recall jsonAtoms memEngine
        (BadgerMemory.Remember jsonAtoms memEngine { db := ∅ } "j" GoAny.nil).1 "j"
      = (GoAny.nil, none) ∧
    BadgerMemory.Recall jsonAtoms memEngine { db := ∅ } "k"
      ≠ BadgerMemory.Recall jsonAtoms memEngine
          (BadgerMemory.Remember jsonAtoms memEngine { db := ∅ } "j" GoAny.nil).1 "j" ∧
    NewInMemoryMemory.Recall "k" = (GoAny.nil, none) :=
  recall_absent_outcome jsonAtoms memEngine { db := ∅ }
    (BadgerMemory.Remember jsonAtoms memEngine { db := ∅ } "j" GoAny.nil).1 "k" "j"
    (bytesOfString "null") NewInMemoryMemory "k" rfl rfl rfl (by decide)

/-- C13. On the volatile backend `Search(q)` returns no error; its result is `[v]` when
`q` is a stored key with value `v` and empty otherwise; it has at most one element, and
an element it has is the value stored under `q`. -/
theorem inmemory_search (m : InMemoryMemory) (q : String) :
    (m.Search q).2 = none ∧
    (∀ v, m.store.lookup q = some v → (m.Search q).1 = [v]) ∧
    (m.store.lookup q = none → (m.Search q).1 = []) ∧
    (m.Search q).1.length ≤ 1 ∧
    (∀ x ∈ (m.Search q).1, m.store.lookup q = some x) := by
  rw [Search_eq]
  refine ⟨rfl, ?_, ?_, ?_, ?_⟩
  · intro v hv
    rw [hv]
    rfl
  · intro hnone
    rw [hnone]
    rfl
  · cases AList.lookup q m.store <;> simp
  · intro x hx
    cases h : AList.lookup q m.store with
    | none =>
      rw [h] at hx
      simp at hx
    | some v =>
      rw [h] at hx
      simp at hx
      rw [hx]

/-- A store holding `a` and `b`: searching `a` gives its value alone, searching `z`
gives nothing. -/
theorem inmemory_search_witness :
    (((NewInMemoryMemory.Remember "a" (GoAny.int 1)).1.Remember "b" (GoAny.int 2)).1.Search "a").1
      = [GoAny.int 1] ∧
    (((NewInMemoryMemory.Remember "a" (GoAny.int 1)).1.Remember "b" (GoAny.int 2)).1.Search "z").1
      = [] :=
  ⟨(inmemory_search ((NewInMemoryMemory.Remember "a" (GoAny.int 1)).1.Remember "b" (GoAny.int 2)).1
      "a").2.1 (GoAny.int 1) (by decide),
   (inmemory_search ((NewInMemoryMemory.Remember "a" (GoAny.int 1)).1.Remember "b" (GoAny.int 2)).1
      "z").2.2.1 (by decide)⟩

/-- C14. On the volatile backend `ListKeys` returns no error; a key is in its result
exactly when it is stored; no key occurs twice, so the length is the number of entries;
and the call leaves the store as it was. -/
theorem inmemory_list_keys (m : InMemoryMemory) :
    m.ListKeys.2 = none ∧
    (∀ k, k ∈ m.ListKeys.1 ↔ k ∈ m.store) ∧
    (∀ k, k ∈ m.ListKeys.1 ↔ ∃ v, m.store.lookup k = some v) ∧
    m.ListKeys.1.Nodup ∧
    (∀ k, k ∈ m.store → m.ListKeys.1.count k = 1) ∧
    m.ListKeys.1.length = m.store.entries.length ∧
    m.apply MemOp.ListKeys = m := by
  rw [ListKeys_eq_keys]
  refine ⟨rfl, fun k => AList.mem_keys.symm, ?_, AList.keys_nodup _, ?_, ?_, rfl⟩
  · intro k
    rw [← AList.mem_keys, ← AList.lookup_isSome, Option.isSome_iff_exists]
  · intro k hk
    exact List.count_eq_one_of_mem (AList.keys_nodup _) (AList.mem_keys.mp hk)
  · show (m.store.entries.map Sigma.fst).length = m.store.entries.length
    rw [List.length_map]

/-- A store holding `a` and `b` after `a` was stored twice lists `a` once. -/
theorem inmemory_list_keys_witness :
    "a" ∈ (((NewInMemoryMemory.Remember "a" (GoAny.int 1)).1.Remember "b" (GoAny.int 2)).1.Remember
        "a" (GoAny.int 3)).1.store ∧
    (((NewInMemoryMemory.Remember "a" (GoAny.int 1)).1.Remember "b" (GoAny.int 2)).1.Remember
        "a" (GoAny.int 3)).1.ListKeys.1.count "a" = 1 :=
  ⟨by decide,
   (inmemory_list_keys (((NewInMemoryMemory.Remember "a" (GoAny.int 1)).1.Remember "b"
      (GoAny.int 2)).1.Remember "a" (GoAny.int 3)).1).2.2.2.2.1 "a" (by decide)⟩

end VolatileContract

/-! ## The module registry -/

section Registry

variable {S L : Type}

theorem GetModule_congr (b b' : Brain S L) (name : String)
    (h : b'.modules.lookup name = b.modules.lookup name) : b'.GetModule name = b.GetModule name := by
  unfold Brain.GetModule
  rw [h]

theorem LogEvent_frame (b : Brain S L) (now : Time) (ty : String) (d : GoAny) :
    (b.LogEvent now ty d).brain.modules = b.modules ∧
    (b.LogEvent now ty d).brain.ReportFunc = b.ReportFunc ∧
    (b.LogEvent now ty d).brain.reflectOn = b.reflectOn ∧
    (b.LogEvent now ty d).brain.reflectEvery = b.reflectEvery := by
  unfold Brain.LogEvent
  dsimp only
  split
  · exact ⟨rfl, rfl, rfl, rfl⟩
  · exact ⟨rfl, rfl, rfl, rfl⟩

theorem reflectAndReport_modules (fmt : TimeFormat) (b : Brain S L) (now1 now2 : Time) :
    (b.reflectAndReport fmt now1 now2).1.modules = b.modules := by
  unfold Brain.reflectAndReport
  dsimp only
  split
  · rfl
  · rfl

/-- A step that is not a registration under `name` leaves the entry of `name` alone. -/
theorem step_lookup (lt : MemoryModule L) (fmt : TimeFormat) (b : Brain S L) (name : String)
    (st : BrainStep) (hst : ∀ x, st ≠ BrainStep.call (.registerModule name x)) :
    (b.step lt fmt st).modules.lookup name = b.modules.lookup name := by
  cases st with
  | task now1 now2 =>
    show (b.reflectAndReport fmt now1 now2).1.modules.lookup name = _
    rw [reflectAndReport_modules]
  | call op =>
    cases op with
    | logEvent now ty d =>
      show (b.LogEvent now ty d).brain.modules.lookup name = _
      rw [(LogEvent_frame b now ty d).1]
    | summarize now =>
      show (b.Summarize lt fmt now).brain.modules.lookup name = _
      rw [(Summarize_frame lt fmt b now).2.2.2.2]
    | setReflectionFrequency n => rfl
    | setReflectionEvents events => rfl
    | setReportFunc f => rfl
    | registerModule name' module =>
      have hne : name ≠ name' := by
        intro heq
        exact hst module (by rw [heq])
      exact AList.lookup_insert_ne hne
    | getModule name' => rfl

theorem run_lookup (lt : MemoryModule L) (fmt : TimeFormat) (name : String)
    (steps : List BrainStep) :
    ∀ b : Brain S L, (∀ x, BrainStep.call (.registerModule name x) ∉ steps) →
      (b.run lt fmt steps).modules.lookup name = b.modules.lookup name := by
  induction steps with
  | nil =>
    intro b _
    rfl
  | cons st rest ih =>
    intro b hsteps
    have hst : ∀ x, st ≠ BrainStep.call (.registerModule name x) := by
      intro x heq
      exact hsteps x (by rw [heq]; exact List.mem_cons_self _ _)
    have hrest := ih (b.step lt fmt st) (fun x hin => hsteps x (List.mem_cons_of_mem _ hin))
    show ((b.step lt fmt st).run lt fmt rest).modules.lookup name = _
    rw [hrest, step_lookup lt fmt b name st hst]

/-- C15. `GetModule(name)` returns the handle of the most recent `RegisterModule(name, h)`
and found, through any later steps that do not register `name`; on a Brain built by
`NewBrain` it returns not-found as long as `name` was never registered; a second
registration of `name` replaces the handle and adds no entry; and registering `name`
leaves what `GetModule` returns for any other name as it was. -/
theorem registry_last_write_wins (lt : MemoryModule L) (fmt : TimeFormat) (b : Brain S L)
    (name : String) (h h' : GoAny) :
    (b.RegisterModule name h).GetModule name = (h, true) ∧
    (∀ steps : List BrainStep, (∀ x, BrainStep.call (.registerModule name x) ∉ steps) →
      ((b.RegisterModule name h).run lt fmt steps).GetModule name = (h, true)) ∧
    (∀ (s : S) (l : L) (steps : List BrainStep),
      (∀ x, BrainStep.call (.registerModule name x) ∉ steps) →
      ((NewBrain s l).run lt fmt steps).GetModule name = (GoAny.nil, false)) ∧
    ((b.RegisterModule name h).RegisterModule name h').GetModule name = (h', true) ∧
    ((b.RegisterModule name h).RegisterModule name h').modules.keys.count name = 1 ∧
    ((b.RegisterModule name h).RegisterModule name h').modules.keys.length
      = (b.RegisterModule name h).modules.keys.length ∧
    (∀ name', name' ≠ name → ∀ x, (b.RegisterModule name x).GetModule name' = b.GetModule name') := by
  have hreg : ∀ (b0 : Brain S L) (x : GoAny), (b0.RegisterModule name x).GetModule name = (x, true) := by
    intro b0 x
    unfold Brain.GetModule Brain.RegisterModule
    dsimp only
    rw [AList.lookup_insert]
  have hmem : name ∈ (b.RegisterModule name h).modules.keys :=
    AList.mem_keys.mp ((AList.mem_insert b.modules).mpr (Or.inl rfl))
  refine ⟨hreg b h, ?_, ?_, hreg _ h', ?_, ?_, ?_⟩
  · intro steps hsteps
    rw [GetModule_congr _ _ name (run_lookup lt fmt name steps _ hsteps)]
    exact hreg b h
  · intro s l steps hsteps
    rw [GetModule_congr _ _ name (run_lookup lt fmt name steps _ hsteps)]
    rfl
  · apply List.count_eq_one_of_mem (AList.keys_nodup _)
    exact AList.mem_keys.mp ((AList.mem_insert _).mpr (Or.inl rfl))
  · show (AList.insert name h' (b.RegisterModule name h).modules).keys.length = _
    rw [AList.keys_insert, List.length_cons, List.length_erase_of_mem hmem]
    have hpos : 0 < (b.RegisterModule name h).modules.keys.length := List.length_pos_of_mem hmem
    omega
  · intro name' hne x
    exact GetModule_congr _ _ name' (AList.lookup_insert_ne hne)

/-- A fresh Brain: `conversation` registered, then other steps; `todo` never registered. -/
theorem registry_last_write_wins_witness :
    (∀ x, BrainStep.call (.registerModule "conversation" x) ∉
      [BrainStep.call (.registerModule "todo" (GoAny.ptr 2)), BrainStep.task 1 2,
        BrainStep.call (.logEvent 3 "heartbeat" GoAny.nil)]) ∧
    (((NewBrain () NewInMemoryMemory).RegisterModule "conversation" (GoAny.ptr 1)).run
        InMemoryMemory.module sampleFormat
        [BrainStep.call (.registerModule "todo" (GoAny.ptr 2)), BrainStep.task 1 2,
          BrainStep.call (.logEvent 3 "heartbeat" GoAny.nil)]).GetModule "conversation"
      = (GoAny.ptr 1, true) ∧
    "todo" ≠ "conversation" ∧
    ((NewBrain () NewInMemoryMemory).RegisterModule "conversation" (GoAny.ptr 1)).GetModule "todo"
      = (NewBrain () NewInMemoryMemory).GetModule "todo" :=
  ⟨by simp,
   (registry_last_write_wins InMemoryMemory.module sampleFormat (NewBrain () NewInMemoryMemory)
      "conversation" (GoAny.ptr 1) (GoAny.ptr 1)).2.1 _ (by simp),
   by decide,
   (registry_last_write_wins InMemoryMemory.module sampleFormat (NewBrain () NewInMemoryMemory)
      "conversation" (GoAny.ptr 1) (GoAny.ptr 1)).2.2.2.2.2.2 "todo" (by decide) (GoAny.ptr 1)⟩

end Registry

/-! ## Tuning the scheduler, and the reflection task -/

section Tuning

variable {S L : Type}

theorem lookup_foldl_insert (events : List String) :
    ∀ (m0 : GoMap Bool) (ty : String),
      (events.foldl (fun (m : GoMap Bool) e => m.insert e true) m0).lookup ty
        = if ty ∈ events then some true else m0.lookup ty := by
  induction events with
  | nil =>
    intro m0 ty
    simp
  | cons e rest ih =>
    intro m0 ty
    rw [List.foldl_cons, ih]
    by_cases hrest : ty ∈ rest
    · rw [if_pos hrest, if_pos (List.mem_cons_of_mem _ hrest)]
    · rw [if_neg hrest]
      by_cases he : ty = e
      · subst he
        rw [AList.lookup_insert, if_pos (List.mem_cons_self _ _)]
      · rw [AList.lookup_insert_ne he, if_neg]
        intro hmem
        rcases List.mem_cons.mp hmem with h | h
        · exact he h
        · exact hrest h

/-- After `SetReflectionEvents(events)` a type triggers exactly when it is listed. -/
theorem SetReflectionEvents_index (b : Brain S L) (events : List String) (ty : String) :
    indexBool (b.SetReflectionEvents events).reflectOn ty = true ↔ ty ∈ events := by
  unfold indexBool Brain.SetReflectionEvents
  dsimp only
  rw [lookup_foldl_insert, AList.lookup_empty]
  by_cases h : ty ∈ events
  · rw [if_pos h]
    exact ⟨fun _ => h, fun _ => rfl⟩
  · rw [if_neg h]
    exact ⟨fun hf => absurd hf (by decide), fun hin => absurd hin h⟩

/-- The condition under which `LogEvent` starts a reflection task. -/
theorem LogEvent_scheduled_iff (b : Brain S L) (now : Time) (ty : String) (d : GoAny) :
    (b.LogEvent now ty d).effects = [Effect.spawnReflect] ↔
      (indexBool b.reflectOn ty = true ∨ wrapInt (b.eventCount + 1) ≥ b.reflectEvery) := by
  rcases (LogEvent_count b now ty d).2 with ⟨he, _, hor⟩ | ⟨he, _, hf, hlt⟩
  · exact ⟨fun _ => hor, fun _ => he⟩
  · constructor
    · intro h
      rw [he] at h
      exact List.noConfusion h
    · intro hor
      rcases hor with hty | hge
      · rw [hty] at hf
        exact absurd hf (by decide)
      · omega

/-- C16. `SetReflectionFrequency(n)` sets the threshold to `n` and `SetReflectionEvents`
makes the trigger types exactly the listed ones; both leave the timeline, the counter,
the registry, the callback and each other's field as they were and start no task, also
when the counter has already reached `n`; the next `LogEvent` decides with the new
values. -/
theorem tuning_changes_only_policy (lt : MemoryModule L) (fmt : TimeFormat) (b : Brain S L)
    (n : Int) (events : List String) :
    ((b.SetReflectionFrequency n).reflectEvery = n ∧
      (b.SetReflectionFrequency n).reflectOn = b.reflectOn ∧
      (b.SetReflectionFrequency n).Timeline = b.Timeline ∧
      (b.SetReflectionFrequency n).eventCount = b.eventCount ∧
      (b.SetReflectionFrequency n).modules = b.modules ∧
      (b.SetReflectionFrequency n).ReportFunc = b.ReportFunc ∧
      (b.apply lt fmt (.setReflectionFrequency n)).2 = []) ∧
    ((∀ ty, indexBool (b.SetReflectionEvents events).reflectOn ty = true ↔ ty ∈ events) ∧
      (b.SetReflectionEvents events).reflectEvery = b.reflectEvery ∧
      (b.SetReflectionEvents events).Timeline = b.Timeline ∧
      (b.SetReflectionEvents events).eventCount = b.eventCount ∧
      (b.SetReflectionEvents events).modules = b.modules ∧
      (b.SetReflectionEvents events).ReportFunc = b.ReportFunc ∧
      (b.apply lt fmt (.setReflectionEvents events)).2 = []) ∧
    (∀ now ty d, ((b.SetReflectionFrequency n).LogEvent now ty d).effects = [Effect.spawnReflect] ↔
      (indexBool b.reflectOn ty = true ∨ wrapInt (b.eventCount + 1) ≥ n)) ∧
    (∀ now ty d, ((b.SetReflectionEvents events).LogEvent now ty d).effects = [Effect.spawnReflect] ↔
      (ty ∈ events ∨ wrapInt (b.eventCount + 1) ≥ b.reflectEvery)) := by
  refine ⟨⟨rfl, rfl, rfl, rfl, rfl, rfl, rfl⟩,
    ⟨SetReflectionEvents_index b events, rfl, rfl, rfl, rfl, rfl, rfl⟩, ?_, ?_⟩
  · intro now ty d
    exact LogEvent_scheduled_iff (b.SetReflectionFrequency n) now ty d
  · intro now ty d
    rw [LogEvent_scheduled_iff, SetReflectionEvents_index]
    rfl

theorem logEvents_effects_mem (calls : List LogCall) :
    ∀ (b : Brain S L), ∀ x ∈ (b.logEvents calls).2.1, x = Effect.spawnReflect := by
  induction calls with
  | nil =>
    intro b x hx
    simp [Brain.logEvents] at hx
  | cons c cs ih =>
    intro b x hx
    simp only [Brain.logEvents, List.mem_append] at hx
    rcases hx with h | h
    · rcases LogEvent_effects_cases b c.now c.eventType c.data with he | he
      · rw [he] at h
        exact List.mem_singleton.mp h
      · rw [he] at h
        simp at h
    · exact ih _ x h

/-- A run of calls that starts no task counts every call and stays below the threshold. -/
theorem logEvents_quiet (calls : List LogCall) :
    ∀ (b : Brain S L), 0 ≤ b.eventCount → b.eventCount < maxInt → b.reflectEvery ≤ maxInt →
      (b.logEvents calls).2.1 = [] → calls ≠ [] →
      b.eventCount + (calls.length : Int) < b.reflectEvery := by
  induction calls with
  | nil =>
    intro b _ _ _ _ hne
    exact absurd rfl hne
  | cons c cs ih =>
    intro b h0 h1 hmax heff _
    simp only [Brain.logEvents, List.append_eq_nil] at heff
    have hw : wrapInt (b.eventCount + 1) = b.eventCount + 1 :=
      wrapInt_of_isInt (by unfold IsInt minInt maxInt; unfold maxInt at h1; omega)
    obtain ⟨hT, hc⟩ := LogEvent_count b c.now c.eventType c.data
    rw [hw] at hc
    rcases hc with ⟨he, _, _⟩ | ⟨_, hz, _, hlt⟩
    · rw [he] at heff
      exact absurd heff.1 (List.cons_ne_nil _ _)
    · by_cases hcs : cs = []
      · subst hcs
        simp only [List.length_cons, List.length_nil, Nat.cast_one, zero_add]
        omega
      · have := ih (b.LogEvent c.now c.eventType c.data).brain (by rw [hz]; omega)
          (by rw [hz]; omega) (by rw [hT]; exact hmax) heff.2 hcs
        rw [hz, hT] at this
        simp only [List.length_cons, Nat.cast_add, Nat.cast_one]
        omega

/-- C17. In a reachable state with threshold `T ≥ 1`, any `T` or more consecutive
`LogEvent` calls, of whatever types, start at least one reflection task: a run that
starts none has at most `T - 1` calls; and after every `LogEvent` the counter is below
`T`. -/
theorem reflection_gap_bound (lt : MemoryModule L) (fmt : TimeFormat) (b : Brain S L) (T : Int)
    (calls : List LogCall) (hb : Reachable lt fmt b) (hT : 1 ≤ T) (hthr : b.reflectEvery = T) :
    ((calls.length : Int) ≥ T → Effect.spawnReflect ∈ (b.logEvents calls).2.1) ∧
    ((b.logEvents calls).2.1 = [] → (calls.length : Int) ≤ T - 1) ∧
    (∀ now ty d, (b.LogEvent now ty d).brain.eventCount < T) := by
  obtain ⟨h0, h1, h2⟩ := hb.counter_bounds
  have hquiet : (b.logEvents calls).2.1 = [] → (calls.length : Int) ≤ T - 1 := by
    intro heff
    by_cases hne : calls = []
    · subst hne
      simp only [List.length_nil, Nat.cast_zero]
      omega
    · have := logEvents_quiet calls b h0 h1 h2.2 heff hne
      rw [hthr] at this
      omega
  refine ⟨?_, hquiet, ?_⟩
  · intro hlen
    cases heff : (b.logEvents calls).2.1 with
    | nil =>
      have := hquiet heff
      omega
    | cons x rest =>
      have hx : x = Effect.spawnReflect :=
        logEvents_effects_mem calls b x (by rw [heff]; exact List.mem_cons_self _ _)
      rw [hx]
      exact List.mem_cons_self _ _
  · intro now ty d
    rcases (LogEvent_count b now ty d).2 with ⟨_, hz, _⟩ | ⟨_, hz, _, hlt⟩
    · rw [hz]
      omega
    · rw [hz, ← hthr]
      exact hlt

/-- Ten heartbeats on a fresh Brain, whose threshold is 10, start a task. -/
theorem reflection_gap_bound_witness :
    ((List.replicate 10 (LogCall.mk 0 "heartbeat" GoAny.nil)).length : Int) ≥ 10 ∧
    Effect.spawnReflect ∈ ((NewBrain () NewInMemoryMemory).logEvents
      (List.replicate 10 (LogCall.mk 0 "heartbeat" GoAny.nil))).2.1 :=
  ⟨by decide,
   (reflection_gap_bound InMemoryMemory.module sampleFormat (NewBrain () NewInMemoryMemory) 10
      (List.replicate 10 (LogCall.mk 0 "heartbeat" GoAny.nil))
      (Reachable.init () NewInMemoryMemory) (by decide) rfl).1 (by decide)⟩

/-- C18. A reflection task runs the analyzer and then, when a report callback is set,
calls it once with a summary that contains the word `reflection`; with no callback it
reports nothing. On a Brain built by `NewBrain`, whose threshold is 10 and whose trigger
types are exactly `inbound_message` and `user_feedback`, one
`LogEvent("inbound_message", "hi")` starts exactly one task and leaves the counter at 0. -/
theorem reflection_task_reports (fmt : TimeFormat) (b : Brain S L) (now1 now2 : Time)
    (s : S) (l : L) (now : Time) :
    (b.reflectAndReport fmt now1 now2).1.SelfReflect = b.SelfReflect.Analyze now1 ∧
    (b.reflectAndReport fmt now1 now2).1.SelfReflect.lastAnalysis = now1 ∧
    (∀ f, b.ReportFunc = some f →
      (b.reflectAndReport fmt now1 now2).2
        = [Effect.report f ("[Brain] Self-reflection complete at " ++ fmt.rfc3339 now2)] ∧
      "[Brain] Self-reflection complete at " ++ fmt.rfc3339 now2
        = "[Brain] Self-" ++ "reflection" ++ (" complete at " ++ fmt.rfc3339 now2)) ∧
    (b.ReportFunc = none → (b.reflectAndReport fmt now1 now2).2 = []) ∧
    (NewBrain s l).reflectEvery = 10 ∧
    (NewBrain s l).eventCount = 0 ∧
    (∀ ty, indexBool (NewBrain s l).reflectOn ty = true ↔
      (ty = "inbound_message" ∨ ty = "user_feedback")) ∧
    ((NewBrain s l).LogEvent now "inbound_message" (GoAny.str "hi")).effects
      = [Effect.spawnReflect] ∧
    ((NewBrain s l).LogEvent now "inbound_message" (GoAny.str "hi")).brain.eventCount = 0 := by
  have htypes : ∀ ty, indexBool (NewBrain s l).reflectOn ty = true ↔
      (ty = "inbound_message" ∨ ty = "user_feedback") := by
    intro ty
    unfold indexBool NewBrain
    dsimp only
    by_cases h1 : ty = "user_feedback"
    · subst h1
      rw [AList.lookup_insert]
      exact ⟨fun _ => Or.inr rfl, fun _ => rfl⟩
    · rw [AList.lookup_insert_ne h1]
      by_cases h2 : ty = "inbound_message"
      · subst h2
        rw [AList.lookup_insert]
        exact ⟨fun _ => Or.inl rfl, fun _ => rfl⟩
      · rw [AList.lookup_insert_ne h2, AList.lookup_empty]
        constructor
        · intro hf
          exact absurd hf (by decide)
        · intro hor
          rcases hor with h | h
          · exact absurd h h2
          · exact absurd h h1
  have hlog := LogEvent_count (NewBrain s l) now "inbound_message" (GoAny.str "hi")
  have htrig : indexBool (NewBrain s l).reflectOn "inbound_message" = true :=
    (htypes "inbound_message").mpr (Or.inl rfl)
  refine ⟨?_, ?_, ?_, ?_, rfl, rfl, htypes, ?_, ?_⟩
  · unfold Brain.reflectAndReport
    dsimp only
    split <;> rfl
  · unfold Brain.reflectAndReport
    dsimp only
    split <;> rfl
  · intro f hf
    constructor
    · unfold Brain.reflectAndReport
      dsimp only
      rw [hf]
    · rw [← String.append_assoc]
      rfl
  · intro hf
    unfold Brain.reflectAndReport
    dsimp only
    rw [hf]
  · rcases hlog.2 with ⟨he, _, _⟩ | ⟨_, _, hfalse, _⟩
    · exact he
    · rw [htrig] at hfalse
      exact absurd hfalse (by decide)
  · rcases hlog.2 with ⟨_, hz, _⟩ | ⟨_, _, hfalse, _⟩
    · exact hz
    · rw [htrig] at hfalse
      exact absurd hfalse (by decide)

/-- A Brain with callback 1: the task reports once; a Brain without one reports nothing. -/
theorem reflection_task_reports_witness :
    ((NewBrain () NewInMemoryMemory).SetReportFunc (some 1)).ReportFunc = some 1 ∧
    (((NewBrain () NewInMemoryMemory).SetReportFunc (some 1)).reflectAndReport sampleFormat 3 4).2
      = [Effect.report 1 ("[Brain] Self-reflection complete at " ++ sampleFormat.rfc3339 4)] ∧
    (NewBrain () NewInMemoryMemory).ReportFunc = none ∧
    ((NewBrain () NewInMemoryMemory).reflectAndReport sampleFormat 3 4).2 = [] :=
  ⟨rfl,
   ((reflection_task_reports sampleFormat ((NewBrain () NewInMemoryMemory).SetReportFunc (some 1))
      3 4 () NewInMemoryMemory 0).2.2.1 1 rfl).1,
   rfl,
   (reflection_task_reports sampleFormat (NewBrain () NewInMemoryMemory)
      3 4 () NewInMemoryMemory 0).2.2.2.1 rfl⟩

end Tuning

/-! ## The conversation module -/

section Conversation

variable {S L : Type}

/-- The slice `GetHistory` returns for a count that is not negative. -/
theorem GetHistory_of_nonneg (m : ConversationModule) (n : Int) (hn : 0 ≤ n)
    (hlen : (m.messages.length : Int) ≤ maxInt) :
    m.GetHistory n
      = .ok (m.messages.drop (m.messages.length - min n.toNat m.messages.length)) := by
  unfold ConversationModule.GetHistory
  dsimp only
  by_cases hgt : n > (m.messages.length : Int)
  · rw [if_pos hgt]
    have hw : wrapInt ((m.messages.length : Int) - m.messages.length) = 0 := by
      rw [sub_self]
      rfl
    rw [hw, if_pos ⟨le_refl 0, by omega⟩]
    have hmin : min n.toNat m.messages.length = m.messages.length := by omega
    rw [hmin, Nat.sub_self]
    rfl
  · rw [if_neg hgt]
    have hw : wrapInt ((m.messages.length : Int) - n) = (m.messages.length : Int) - n :=
      wrapInt_of_isInt (by unfold IsInt minInt maxInt; unfold maxInt at hlen; omega)
    rw [hw, if_pos ⟨by omega, by omega⟩]
    have hmin : min n.toNat m.messages.length = n.toNat := by omega
    have hlow : ((m.messages.length : Int) - n).toNat = m.messages.length - n.toNat := by omega
    rw [hmin, hlow]

/-- C19. For a count `n ≥ 0`, `GetHistory(n)` returns the last `min(n, length)` messages
in insertion order: all of them when `n` is at least the length, none when `n = 0`. It is
a read: its result depends on the message list alone and it assigns to no field. -/
theorem getHistory_last_messages (m : ConversationModule) (n : Int) (hn : 0 ≤ n)
    (hlen : (m.messages.length : Int) ≤ maxInt) :
    m.GetHistory n
      = .ok (m.messages.drop (m.messages.length - min n.toNat m.messages.length)) ∧
    (m.messages.drop (m.messages.length - min n.toNat m.messages.length)).length
      = min n.toNat m.messages.length ∧
    m.messages.drop (m.messages.length - min n.toNat m.messages.length) <:+ m.messages ∧
    ((m.messages.length : Int) ≤ n → m.GetHistory n = .ok m.messages) ∧
    (n = 0 → m.GetHistory n = .ok []) := by
  have hget := GetHistory_of_nonneg m n hn hlen
  refine ⟨hget, ?_, List.drop_suffix _ _, ?_, ?_⟩
  · rw [List.length_drop]
    omega
  · intro hall
    have hmin : min n.toNat m.messages.length = m.messages.length := by omega
    rw [hget, hmin, Nat.sub_self]
    rfl
  · intro hzero
    subst hzero
    rw [hget]
    have hmin : min (0 : Int).toNat m.messages.length = 0 := by simp
    rw [hmin, Nat.sub_zero, List.drop_length]

/-- Five messages: `GetHistory(3)` returns the last three, `GetHistory(9)` all five. -/
theorem getHistory_last_messages_witness :
    (ConversationModule.mk ["a", "b", "c", "d", "e"] none).GetHistory 3 = .ok ["c", "d", "e"] ∧
    (ConversationModule.mk ["a", "b", "c", "d", "e"] none).GetHistory 9
      = .ok ["a", "b", "c", "d", "e"] :=
  ⟨(getHistory_last_messages (ConversationModule.mk ["a", "b", "c", "d", "e"] none) 3
      (by decide) (by decide)).1,
   (getHistory_last_messages (ConversationModule.mk ["a", "b", "c", "d", "e"] none) 9
      (by decide) (by decide)).2.2.2.1 (by decide)⟩

/-- The callback wired by `NewAgentBrain` executes `go b.Summarize()` exactly when the
number of messages, capped at 20, is a multiple of 10. -/
theorem OnAdd_summarize_iff (conv : ConversationModule) (b : Brain S L) (now : Time)
    (msg : String) (hlen : (conv.messages.length : Int) ≤ maxInt) :
    (NewAgentBrain.OnAdd conv b now msg).2 = true ↔ (min conv.messages.length 20) % 10 = 0 := by
  unfold NewAgentBrain.OnAdd
  dsimp only
  rw [GetHistory_of_nonneg conv 20 (by decide) hlen]
  dsimp only
  rw [List.length_drop, decide_eq_true_iff]
  have h20 : (20 : Int).toNat = 20 := rfl
  rw [h20]
  have heq : conv.messages.length - (conv.messages.length - min 20 conv.messages.length)
      = min conv.messages.length 20 := by omega
  rw [heq]

theorem sampleConversation_messages (n : Nat) :
    (sampleConversation n).messages = List.replicate n "m" := by
  have hfold : ∀ (l : List String) (conv : ConversationModule),
      (l.foldl (fun conv msg => (conv.AddMessage msg).1) conv).messages = conv.messages ++ l := by
    intro l
    induction l with
    | nil =>
      intro conv
      simp
    | cons x rest ih =>
      intro conv
      rw [List.foldl_cons, ih]
      have hadd : (conv.AddMessage x).1.messages = conv.messages ++ [x] := by
        unfold ConversationModule.AddMessage
        dsimp only
        split <;> rfl
      rw [hadd, List.append_assoc]
      rfl
  unfold sampleConversation
  rw [hfold]
  rfl

/-- C20, the code at 21 messages. The callback run with 21 messages in the log executes
`go b.Summarize()`, although 21 is not a multiple of 10: `GetHistory(20)` has 20
elements. -/
theorem onAdd_summarizes_at_21 :
    (sampleConversation 21).messages.length = 21 ∧
    (sampleConversation 21).GetHistory 20 = .ok (List.replicate 20 "m") ∧
    (NewAgentBrain.OnAdd (sampleConversation 21) (NewBrain () NewInMemoryMemory) 0 "m").2 = true ∧
    ¬ (21 % 10 = 0) := by
  have hlen : (sampleConversation 21).messages.length = 21 := by
    rw [sampleConversation_messages, List.length_replicate]
  have hmax : ((sampleConversation 21).messages.length : Int) ≤ maxInt := by
    rw [hlen]
    decide
  refine ⟨hlen, ?_, ?_, by decide⟩
  · rw [GetHistory_of_nonneg _ 20 (by decide) hmax, sampleConversation_messages]
    rfl
  · rw [OnAdd_summarize_iff _ _ _ _ hmax, hlen]
    rfl

/-- The outcome of `GetHistory` for a negative count: the lower bound of the slice
expression is above the length, or wraps below zero. -/
theorem GetHistory_of_neg (m : ConversationModule) (n : Int) (hneg : n < 0) (hmin : minInt ≤ n)
    (hlen : (m.messages.length : Int) ≤ maxInt) :
    m.GetHistory n = .error { msg := "slice bounds out of range" } := by
  unfold ConversationModule.GetHistory
  dsimp only
  have hgt : ¬ n > (m.messages.length : Int) := by omega
  rw [if_neg hgt]
  have hbad : ¬ (0 ≤ wrapInt ((m.messages.length : Int) - n) ∧
      wrapInt ((m.messages.length : Int) - n) ≤ (m.messages.length : Int)) := by
    unfold wrapInt
    unfold minInt at hmin
    unfold maxInt at hlen
    omega
  rw [if_neg hbad]

/-- C21, the code at `n = -1`. `GetHistory(-1)` does not return a list: on a module with
three messages, and on a new module, the slice expression `m.messages[len+1:]` is out of
range and the call panics. -/
theorem getHistory_negative_panics :
    (ConversationModule.mk ["a", "b", "c"] none).GetHistory (-1)
      = .error { msg := "slice bounds out of range" } ∧
    NewConversationModule.GetHistory (-1) = .error { msg := "slice bounds out of range" } ∧
    (∀ history, (ConversationModule.mk ["a", "b", "c"] none).GetHistory (-1) ≠ .ok history) := by
  have h1 := GetHistory_of_neg (ConversationModule.mk ["a", "b", "c"] none) (-1)
    (by decide) (by decide) (by decide)
  have h2 := GetHistory_of_neg NewConversationModule (-1) (by decide) (by decide) (by decide)
  refine ⟨h1, h2, ?_⟩
  intro history hok
  rw [h1] at hok
  exact Except.noConfusion hok

end Conversation

/-! ## The media store -/

section Media

/-- After the loop of `ReleaseAll` a ref of the list has no entry, any other ref its old
one. -/
theorem releaseLoop_refs (rs : List String) :
    ∀ (refs : GoMap mediaEntry) (refToScope : GoMap String) (fs : FileSystem) (r : String),
      (releaseLoop rs (refs, refToScope, fs)).1.lookup r
        = if r ∈ rs then none else refs.lookup r := by
  induction rs with
  | nil =>
    intro refs refToScope fs r
    simp [releaseLoop]
  | cons ref rest ih =>
    intro refs refToScope fs r
    unfold releaseLoop
    cases hl : AList.lookup ref refs with
    | some entry =>
      dsimp only
      rw [ih]
      by_cases hr : r = ref
      · subst hr
        rw [AList.lookup_erase, if_pos (List.mem_cons_self _ _)]
        split <;> rfl
      · rw [AList.lookup_erase_ne hr]
        simp only [List.mem_cons, hr, false_or]
    | none =>
      dsimp only
      rw [ih]
      by_cases hr : r = ref
      · subst hr
        rw [hl, if_pos (List.mem_cons_self _ _)]
        split <;> rfl
      · simp only [List.mem_cons, hr, false_or]

/-- After the loop of `ReleaseAll` a ref of the list that had an entry has no scope, any
other ref its old one. -/
theorem releaseLoop_refToScope (rs : List String) :
    ∀ (refs : GoMap mediaEntry) (refToScope : GoMap String) (fs : FileSystem) (r : String),
      (releaseLoop rs (refs, refToScope, fs)).2.1.lookup r
        = if r ∈ rs ∧ r ∈ refs then none else refToScope.lookup r := by
  induction rs with
  | nil =>
    intro refs refToScope fs r
    simp [releaseLoop]
  | cons ref rest ih =>
    intro refs refToScope fs r
    unfold releaseLoop
    cases hl : AList.lookup ref refs with
    | some entry =>
      dsimp only
      rw [ih]
      have hin : ref ∈ refs := AList.lookup_isSome.mp (by rw [hl]; rfl)
      by_cases hr : r = ref
      · subst hr
        have hnot : r ∉ refs.erase r := fun h => (AList.mem_erase.mp h).1 rfl
        rw [if_neg (fun h => hnot h.2), AList.lookup_erase,
          if_pos ⟨List.mem_cons_self _ _, hin⟩]
      · rw [AList.lookup_erase_ne hr]
        have hmem : r ∈ refs.erase ref ↔ r ∈ refs :=
          ⟨fun h => (AList.mem_erase.mp h).2, fun h => AList.mem_erase.mpr ⟨hr, h⟩⟩
        simp only [List.mem_cons, hr, false_or, hmem]
    | none =>
      dsimp only
      rw [ih]
      by_cases hr : r = ref
      · subst hr
        have hnot : r ∉ refs := AList.lookup_eq_none.mp hl
        rw [if_neg (fun h => hnot h.2), if_neg (fun h => hnot h.2)]
      · simp only [List.mem_cons, hr, false_or]

/-- The maps after `ReleaseAll` when the scope has a set. -/
theorem ReleaseAll_some (s : FileMediaStore) (fs : FileSystem) (scope : String)
    (set : GoMap Unit) (hset : s.scopeToRefs.lookup scope = some set) :
    (s.ReleaseAll fs scope).2.2 = none ∧
    (∀ r, (s.ReleaseAll fs scope).1.refs.lookup r = if r ∈ set then none else s.refs.lookup r) ∧
    (∀ r, (s.ReleaseAll fs scope).1.refToScope.lookup r
      = if r ∈ set ∧ r ∈ s.refs then none else s.refToScope.lookup r) ∧
    (s.ReleaseAll fs scope).1.scopeToRefs = s.scopeToRefs.erase scope := by
  unfold FileMediaStore.ReleaseAll
  rw [hset]
  dsimp only
  refine ⟨rfl, ?_, ?_, rfl⟩
  · intro r
    rw [releaseLoop_refs]
    simp only [AList.mem_keys]
  · intro r
    rw [releaseLoop_refToScope]
    simp only [AList.mem_keys]

/-- The store after `ReleaseAll` when the scope has no set. -/
theorem ReleaseAll_none (s : FileMediaStore) (fs : FileSystem) (scope : String)
    (hset : s.scopeToRefs.lookup scope = none) : s.ReleaseAll fs scope = (s, fs, none) := by
  unfold FileMediaStore.ReleaseAll
  rw [hset]

/-- The maps after a `Store` of a file that exists. -/
theorem Store_maps (s : FileMediaStore) (fs : FileSystem) (id : String) (now : Time)
    (localPath : String) (meta : MediaMeta) (scope : String) (hfile : localPath ∈ fs) :
    (s.Store fs id now localPath meta scope).store.refs
      = s.refs.insert ("media://" ++ id) { path := localPath, meta := meta, storedAt := now } ∧
    (s.Store fs id now localPath meta scope).store.refToScope
      = s.refToScope.insert ("media://" ++ id) scope ∧
    (∀ sc, (s.Store fs id now localPath meta scope).store.scopeToRefs.lookup sc
      = if sc = scope then
          some (((s.scopeToRefs.lookup scope).getD ∅).insert ("media://" ++ id) ())
        else s.scopeToRefs.lookup sc) ∧
    (s.Store fs id now localPath meta scope).ref = "media://" ++ id ∧
    (s.Store fs id now localPath meta scope).err = none := by
  unfold FileMediaStore.Store
  rw [if_neg (not_not.mpr hfile)]
  dsimp only
  refine ⟨rfl, rfl, ?_, rfl, rfl⟩
  intro sc
  by_cases hsc : sc = scope
  · subst hsc
    rw [AList.lookup_insert, if_pos rfl]
    cases hl : AList.lookup sc s.scopeToRefs with
    | none =>
      dsimp only
      rw [AList.lookup_insert]
      rfl
    | some set =>
      dsimp only
      rw [hl]
  · rw [AList.lookup_insert_ne hsc, if_neg hsc]
    cases hl : AList.lookup scope s.scopeToRefs with
    | none =>
      dsimp only
      rw [AList.lookup_insert_ne hsc]
    | some set => rfl

theorem mem_of_lookup {V : Type} {m : GoMap V} {k : String} {v : V}
    (h : m.lookup k = some v) : k ∈ m :=
  AList.lookup_isSome.mp (by rw [h]; rfl)

/-- A `Store` that draws a ref never issued before keeps the maps fitting together. -/
theorem MediaInv.store {issued : List (String × String)} {s : FileMediaStore}
    (hinv : MediaInv issued s) (fs : FileSystem) (id : String) (now : Time) (localPath : String)
    (meta : MediaMeta) (scope : String) (hfile : localPath ∈ fs)
    (hfresh : ("media://" ++ id) ∉ issued.map Prod.fst) :
    MediaInv (("media://" ++ id, scope) :: issued)
      (s.Store fs id now localPath meta scope).store := by
  obtain ⟨hrefs, hr2s, hs2r, _, _⟩ := Store_maps s fs id now localPath meta scope hfile
  have hnew : ("media://" ++ id) ∉ s.refs := by
    intro hin
    obtain ⟨e, he⟩ := Option.isSome_iff_exists.mp (AList.lookup_isSome.mpr hin)
    obtain ⟨sc, _, _, _, _, hiss⟩ := hinv.entry_scoped _ e he
    exact hfresh (List.mem_map.mpr ⟨_, hiss, rfl⟩)
  constructor
  · intro r e he
    rw [hrefs] at he
    by_cases hr : r = "media://" ++ id
    · subst hr
      refine ⟨scope, ((s.scopeToRefs.lookup scope).getD ∅).insert ("media://" ++ id) (),
        ?_, ?_, ?_, List.mem_cons_self _ _⟩
      · rw [hr2s, AList.lookup_insert]
      · rw [hs2r, if_pos rfl]
      · exact (AList.mem_insert _).mpr (Or.inl rfl)
    · rw [AList.lookup_insert_ne hr] at he
      obtain ⟨sc, set, h1, h2, h3, h4⟩ := hinv.entry_scoped r e he
      by_cases hsc : sc = scope
      · subst hsc
        refine ⟨sc, ((s.scopeToRefs.lookup sc).getD ∅).insert ("media://" ++ id) (),
          ?_, ?_, ?_, List.mem_cons_of_mem _ h4⟩
        · rw [hr2s, AList.lookup_insert_ne hr]
          exact h1
        · rw [hs2r, if_pos rfl]
        · rw [h2]
          exact (AList.mem_insert _).mpr (Or.inr h3)
      · refine ⟨sc, set, ?_, ?_, h3, List.mem_cons_of_mem _ h4⟩
        · rw [hr2s, AList.lookup_insert_ne hr]
          exact h1
        · rw [hs2r, if_neg hsc]
          exact h2
  · intro sc set r hset hr
    rw [hs2r] at hset
    rw [hrefs, hr2s]
    by_cases hsc : sc = scope
    · subst hsc
      rw [if_pos rfl] at hset
      have hset' := Option.some.inj hset
      subst hset'
      rcases (AList.mem_insert _).mp hr with hrr | hrin
      · subst hrr
        exact ⟨(AList.mem_insert _).mpr (Or.inl rfl), AList.lookup_insert _⟩
      · cases hl : AList.lookup sc s.scopeToRefs with
        | none =>
          rw [hl] at hrin
          exact absurd hrin (AList.not_mem_empty r)
        | some old =>
          rw [hl] at hrin
          obtain ⟨h1, h2⟩ := hinv.set_entry sc old r hl hrin
          have hne : r ≠ "media://" ++ id := fun h => hnew (h ▸ h1)
          exact ⟨(AList.mem_insert _).mpr (Or.inr h1), by rw [AList.lookup_insert_ne hne]; exact h2⟩
    · rw [if_neg hsc] at hset
      obtain ⟨h1, h2⟩ := hinv.set_entry sc set r hset hr
      have hne : r ≠ "media://" ++ id := fun h => hnew (h ▸ h1)
      exact ⟨(AList.mem_insert _).mpr (Or.inr h1), by rw [AList.lookup_insert_ne hne]; exact h2⟩
  · rw [List.map_cons, List.nodup_cons]
    exact ⟨hfresh, hinv.issued_once⟩
  · intro r sc hsc
    rw [hr2s] at hsc
    rw [hrefs]
    by_cases hr : r = "media://" ++ id
    · exact (AList.mem_insert _).mpr (Or.inl hr)
    · rw [AList.lookup_insert_ne hr] at hsc
      exact (AList.mem_insert _).mpr (Or.inr (hinv.scope_entry r sc hsc))

/-- The maps still fit together after `ReleaseAll`. -/
theorem MediaInv.release {issued : List (String × String)} {s : FileMediaStore}
    (hinv : MediaInv issued s) (fs : FileSystem) (scope : String) :
    MediaInv issued (s.ReleaseAll fs scope).1 := by
  cases hl : AList.lookup scope s.scopeToRefs with
  | none =>
    rw [ReleaseAll_none s fs scope hl]
    exact hinv
  | some set =>
    obtain ⟨_, hrefs, hr2s, hs2r⟩ := ReleaseAll_some s fs scope set hl
    have hkeep : ∀ sc other r, sc ≠ scope → s.scopeToRefs.lookup sc = some other → r ∈ other →
        r ∉ set := by
      intro sc other r hsc hother hr hin
      have h1 := (hinv.set_entry sc other r hother hr).2
      have h2 := (hinv.set_entry scope set r hl hin).2
      rw [h1] at h2
      exact hsc (Option.some.inj h2)
    constructor
    · intro r e he
      rw [hrefs] at he
      by_cases hin : r ∈ set
      · rw [if_pos hin] at he
        exact Option.noConfusion he
      · rw [if_neg hin] at he
        obtain ⟨sc, other, h1, h2, h3, h4⟩ := hinv.entry_scoped r e he
        have hsc : sc ≠ scope := by
          intro heq
          subst heq
          rw [hl] at h2
          exact hin (Option.some.inj h2 ▸ h3)
        refine ⟨sc, other, ?_, ?_, h3, h4⟩
        · rw [hr2s, if_neg (fun h => hin h.1)]
          exact h1
        · rw [hs2r, AList.lookup_erase_ne hsc]
          exact h2
    · intro sc other r hother hr
      rw [hs2r] at hother
      have hsc : sc ≠ scope := by
        intro heq
        subst heq
        rw [AList.lookup_erase] at hother
        exact Option.noConfusion hother
      rw [AList.lookup_erase_ne hsc] at hother
      obtain ⟨h1, h2⟩ := hinv.set_entry sc other r hother hr
      have hnot : r ∉ set := hkeep sc other r hsc hother hr
      constructor
      · apply AList.lookup_isSome.mp
        rw [hrefs, if_neg hnot]
        exact AList.lookup_isSome.mpr h1
      · rw [hr2s, if_neg (fun h => hnot h.1)]
        exact h2
    · exact hinv.issued_once
    · intro r sc hsc
      rw [hr2s] at hsc
      by_cases hc : r ∈ set ∧ r ∈ s.refs
      · rw [if_pos hc] at hsc
        exact Option.noConfusion hsc
      · rw [if_neg hc] at hsc
        have h1 := hinv.scope_entry r sc hsc
        have hnot : r ∉ set := fun h => hc ⟨h, h1⟩
        apply AList.lookup_isSome.mp
        rw [hrefs, if_neg hnot]
        exact AList.lookup_isSome.mpr h1

theorem expireRef_scopes_none (s : FileMediaStore) (ref : String)
    (h0 : s.scopeToRefs.lookup ((s.refToScope.lookup ref).getD "") = none) :
    (s.expireRef ref).scopeToRefs = s.scopeToRefs := by
  unfold FileMediaStore.expireRef
  dsimp only
  rw [h0]

theorem expireRef_scopes_empty (s : FileMediaStore) (ref : String) (set : GoMap Unit)
    (h0 : s.scopeToRefs.lookup ((s.refToScope.lookup ref).getD "") = some set)
    (hempty : (set.erase ref).entries.length = 0) :
    (s.expireRef ref).scopeToRefs = s.scopeToRefs.erase ((s.refToScope.lookup ref).getD "") := by
  unfold FileMediaStore.expireRef
  dsimp only
  rw [h0]
  dsimp only
  rw [if_pos hempty]

theorem expireRef_scopes_nonempty (s : FileMediaStore) (ref : String) (set : GoMap Unit)
    (h0 : s.scopeToRefs.lookup ((s.refToScope.lookup ref).getD "") = some set)
    (hnonempty : ¬ (set.erase ref).entries.length = 0) :
    (s.expireRef ref).scopeToRefs
      = s.scopeToRefs.insert ((s.refToScope.lookup ref).getD "") (set.erase ref) := by
  unfold FileMediaStore.expireRef
  dsimp only
  rw [h0]
  dsimp only
  rw [if_neg hnonempty]

theorem entries_ne_of_mem {V : Type} {m : GoMap V} {k : String} (h : k ∈ m) :
    ¬ m.entries.length = 0 := by
  intro hlen
  have hnil : m.entries = [] := List.length_eq_zero.mp hlen
  have hk : k ∈ m.entries.keys := AList.mem_keys.mp h
  rw [hnil] at hk
  exact absurd hk (List.not_mem_nil _)

/-- A set of a scope after `expireRef` comes from the set the scope had before. -/
theorem expireRef_set_from (s : FileMediaStore) (ref sc : String) (set' : GoMap Unit)
    (h : (s.expireRef ref).scopeToRefs.lookup sc = some set') :
    ∃ set, s.scopeToRefs.lookup sc = some set ∧
      ((sc = (s.refToScope.lookup ref).getD "" ∧ set' = set.erase ref) ∨
       (sc ≠ (s.refToScope.lookup ref).getD "" ∧ set' = set)) := by
  cases h0 : s.scopeToRefs.lookup ((s.refToScope.lookup ref).getD "") with
  | none =>
    rw [expireRef_scopes_none s ref h0] at h
    refine ⟨set', h, Or.inr ⟨?_, rfl⟩⟩
    intro heq
    rw [heq, h0] at h
    exact Option.noConfusion h
  | some set =>
    by_cases hempty : (set.erase ref).entries.length = 0
    · rw [expireRef_scopes_empty s ref set h0 hempty] at h
      by_cases hsc : sc = (s.refToScope.lookup ref).getD ""
      · rw [hsc, AList.lookup_erase] at h
        exact Option.noConfusion h
      · rw [AList.lookup_erase_ne hsc] at h
        exact ⟨set', h, Or.inr ⟨hsc, rfl⟩⟩
    · rw [expireRef_scopes_nonempty s ref set h0 hempty] at h
      by_cases hsc : sc = (s.refToScope.lookup ref).getD ""
      · rw [hsc, AList.lookup_insert] at h
        refine ⟨set, by rw [hsc]; exact h0, Or.inl ⟨hsc, (Option.some.inj h).symm⟩⟩
      · rw [AList.lookup_insert_ne hsc] at h
        exact ⟨set', h, Or.inr ⟨hsc, rfl⟩⟩

/-- A ref other than the expired one stays in the set of its scope. -/
theorem expireRef_set_keeps (s : FileMediaStore) (ref sc r : String) (set : GoMap Unit)
    (hset : s.scopeToRefs.lookup sc = some set) (hr : r ∈ set) (hne : r ≠ ref) :
    ∃ set', (s.expireRef ref).scopeToRefs.lookup sc = some set' ∧ r ∈ set' := by
  cases h0 : s.scopeToRefs.lookup ((s.refToScope.lookup ref).getD "") with
  | none =>
    rw [expireRef_scopes_none s ref h0]
    exact ⟨set, hset, hr⟩
  | some set0 =>
    by_cases hsc : sc = (s.refToScope.lookup ref).getD ""
    · have hsame : set0 = set := by
        rw [← hsc, hset] at h0
        exact (Option.some.inj h0).symm
      subst hsame
      have hin : r ∈ set0.erase ref := AList.mem_erase.mpr ⟨hne, hr⟩
      rw [expireRef_scopes_nonempty s ref set0 h0 (entries_ne_of_mem hin), hsc,
        AList.lookup_insert]
      exact ⟨_, rfl, hin⟩
    · by_cases hempty : (set0.erase ref).entries.length = 0
      · rw [expireRef_scopes_empty s ref set0 h0 hempty, AList.lookup_erase_ne hsc]
        exact ⟨set, hset, hr⟩
      · rw [expireRef_scopes_nonempty s ref set0 h0 hempty, AList.lookup_insert_ne hsc]
        exact ⟨set, hset, hr⟩

/-- The body of the loop of `CleanExpired` keeps the maps fitting together. -/
theorem MediaInv.expireRef {issued : List (String × String)} {s : FileMediaStore}
    (hinv : MediaInv issued s) (ref : String) : MediaInv issued (s.expireRef ref) := by
  have hrefs : (s.expireRef ref).refs = s.refs.erase ref := rfl
  have hr2s : (s.expireRef ref).refToScope = s.refToScope.erase ref := rfl
  constructor
  · intro r e he
    rw [hrefs] at he
    have hne : r ≠ ref := by
      intro heq
      rw [heq, AList.lookup_erase] at he
      exact Option.noConfusion he
    rw [AList.lookup_erase_ne hne] at he
    obtain ⟨sc, set, h1, h2, h3, h4⟩ := hinv.entry_scoped r e he
    obtain ⟨set', h5, h6⟩ := expireRef_set_keeps s ref sc r set h2 h3 hne
    refine ⟨sc, set', ?_, h5, h6, h4⟩
    rw [hr2s, AList.lookup_erase_ne hne]
    exact h1
  · intro sc set' r hset hr
    obtain ⟨set, h1, hcase⟩ := expireRef_set_from s ref sc set' hset
    have hboth : r ∈ set ∧ r ≠ ref := by
      rcases hcase with ⟨_, heq⟩ | ⟨hsc, heq⟩
      · rw [heq] at hr
        exact ⟨(AList.mem_erase.mp hr).2, (AList.mem_erase.mp hr).1⟩
      · rw [heq] at hr
        refine ⟨hr, ?_⟩
        intro hrr
        have h2 := (hinv.set_entry sc set r h1 hr).2
        rw [hrr] at h2
        apply hsc
        rw [h2]
        rfl
    obtain ⟨h2, h3⟩ := hinv.set_entry sc set r h1 hboth.1
    constructor
    · rw [hrefs]
      exact AList.mem_erase.mpr ⟨hboth.2, h2⟩
    · rw [hr2s, AList.lookup_erase_ne hboth.2]
      exact h3
  · exact hinv.issued_once
  · intro r sc hsc
    rw [hr2s] at hsc
    have hne : r ≠ ref := by
      intro heq
      rw [heq, AList.lookup_erase] at hsc
      exact Option.noConfusion hsc
    rw [AList.lookup_erase_ne hne] at hsc
    rw [hrefs]
    exact AList.mem_erase.mpr ⟨hne, hinv.scope_entry r sc hsc⟩

theorem MediaInv.cleanLoop {issued : List (String × String)} (cutoff : Int)
    (entries : List (Sigma (fun _ : String => mediaEntry))) :
    ∀ (st : FileMediaStore × List (String × String)), MediaInv issued st.1 →
      MediaInv issued (Picoclaw.cleanLoop cutoff entries st).1 := by
  induction entries with
  | nil =>
    intro st hinv
    exact hinv
  | cons kv rest ih =>
    intro st hinv
    obtain ⟨s, expired⟩ := st
    unfold Picoclaw.cleanLoop
    split
    · exact ih _ (hinv.expireRef kv.1)
    · exact ih _ hinv

/-- The maps still fit together after `CleanExpired`. -/
theorem MediaInv.clean {issued : List (String × String)} {s : FileMediaStore}
    (hinv : MediaInv issued s) (fs : FileSystem) (now : Time) :
    MediaInv issued (s.CleanExpired fs now).1 := by
  unfold FileMediaStore.CleanExpired
  split
  · exact hinv
  · exact MediaInv.cleanLoop _ _ (s, []) hinv

theorem MediaInv.empty (cfg : MediaCleanerConfig) :
    MediaInv [] (NewFileMediaStoreWithCleanup cfg) := by
  constructor
  · intro r e he
    exact Option.noConfusion he
  · intro sc set r hset _
    exact Option.noConfusion hset
  · exact List.nodup_nil
  · intro r sc hsc
    exact Option.noConfusion hsc

/-- In every reachable store the maps fit together. -/
theorem MediaReachable.inv {issued : List (String × String)} {s : FileMediaStore}
    (h : MediaReachable issued s) : MediaInv issued s := by
  induction h with
  | new => exact MediaInv.empty _
  | newWithCleanup cfg => exact MediaInv.empty cfg
  | store issued s fs id now localPath meta scope _ hfile hfresh ih =>
    exact ih.store fs id now localPath meta scope hfile hfresh
  | release issued s fs scope _ ih => exact ih.release fs scope
  | clean issued s fs now _ ih => exact ih.clean fs now

/-- What `Resolve` and `ResolveWithMeta` return for a ref without an entry. -/
theorem Resolve_unknown (s : FileMediaStore) (r : String) (h : s.refs.lookup r = none) :
    s.Resolve r = ("", some { msg := "media store: unknown ref: " ++ r }) ∧
    s.ResolveWithMeta r
      = ("", { Filename := "", ContentType := "", Source := "" },
          some { msg := "media store: unknown ref: " ++ r }) := by
  unfold FileMediaStore.Resolve FileMediaStore.ResolveWithMeta
  rw [h]
  exact ⟨rfl, rfl⟩

theorem Resolve_congr (s s' : FileMediaStore) (r : String)
    (h : s'.refs.lookup r = s.refs.lookup r) :
    s'.Resolve r = s.Resolve r ∧ s'.ResolveWithMeta r = s.ResolveWithMeta r := by
  unfold FileMediaStore.Resolve FileMediaStore.ResolveWithMeta
  rw [h]
  exact ⟨rfl, rfl⟩

/-- In a reachable store a ref with an entry has the scope it was issued under. -/
theorem MediaInv.scope_of_issued {issued : List (String × String)} {s : FileMediaStore}
    (hinv : MediaInv issued s) (r sc : String) (e : mediaEntry) (hiss : (r, sc) ∈ issued)
    (he : s.refs.lookup r = some e) :
    ∃ set, s.refToScope.lookup r = some sc ∧ s.scopeToRefs.lookup sc = some set ∧ r ∈ set := by
  obtain ⟨sc', set, h1, h2, h3, h4⟩ := hinv.entry_scoped r e he
  have hsame : sc' = sc := by
    have hinj := List.inj_on_of_nodup_map hinv.issued_once h4 hiss rfl
    exact congrArg Prod.snd hinj
  subst hsame
  exact ⟨set, h1, h2, h3⟩

/-- C23. In every reachable state of the media store `ReleaseAll(scope)` returns no error;
afterwards every ref issued under that scope is unknown to `Resolve` and
`ResolveWithMeta`, the scope has no set of refs and no ref has the scope; and every ref
issued under another scope resolves as before. -/
theorem releaseAll_releases_scope (issued : List (String × String)) (s : FileMediaStore)
    (hreach : MediaReachable issued s) (fs : FileSystem) (scope : String) :
    (s.ReleaseAll fs scope).2.2 = none ∧
    (∀ r, ((r, scope) ∈ issued ∨ s.refToScope.lookup r = some scope) →
      (s.ReleaseAll fs scope).1.Resolve r
        = ("", some { msg := "media store: unknown ref: " ++ r }) ∧
      (s.ReleaseAll fs scope).1.ResolveWithMeta r
        = ("", { Filename := "", ContentType := "", Source := "" },
            some { msg := "media store: unknown ref: " ++ r })) ∧
    ((s.ReleaseAll fs scope).1.scopeToRefs.lookup scope = none ∧
      ∀ r, (s.ReleaseAll fs scope).1.refToScope.lookup r ≠ some scope) ∧
    (∀ r sc, (r, sc) ∈ issued → sc ≠ scope →
      (s.ReleaseAll fs scope).1.Resolve r = s.Resolve r ∧
      (s.ReleaseAll fs scope).1.ResolveWithMeta r = s.ResolveWithMeta r) := by
  have hinv := hreach.inv
  have hissued : ∀ r, ((r, scope) ∈ issued ∨ s.refToScope.lookup r = some scope) →
      ∀ e, s.refs.lookup r = some e →
        ∃ set, s.scopeToRefs.lookup scope = some set ∧ r ∈ set := by
    intro r hor e he
    rcases hor with hiss | hsc
    · obtain ⟨set, _, h2, h3⟩ := hinv.scope_of_issued r scope e hiss he
      exact ⟨set, h2, h3⟩
    · obtain ⟨sc', set, h1, h2, h3, _⟩ := hinv.entry_scoped r e he
      rw [hsc] at h1
      have hsame := Option.some.inj h1
      subst hsame
      exact ⟨set, h2, h3⟩
  cases hl : AList.lookup scope s.scopeToRefs with
  | none =>
    rw [ReleaseAll_none s fs scope hl]
    refine ⟨rfl, ?_, ⟨hl, ?_⟩, fun r sc _ _ => ⟨rfl, rfl⟩⟩
    · intro r hor
      apply Resolve_unknown
      cases he : AList.lookup r s.refs with
      | none => rfl
      | some e =>
        obtain ⟨set, h2, _⟩ := hissued r hor e he
        rw [hl] at h2
        exact Option.noConfusion h2
    · intro r hsc
      have hin := hinv.scope_entry r scope hsc
      obtain ⟨e, he⟩ := Option.isSome_iff_exists.mp (AList.lookup_isSome.mpr hin)
      obtain ⟨set, h2, _⟩ := hissued r (Or.inr hsc) e he
      rw [hl] at h2
      exact Option.noConfusion h2
  | some set =>
    obtain ⟨herr, hrefs, hr2s, hs2r⟩ := ReleaseAll_some s fs scope set hl
    refine ⟨herr, ?_, ⟨?_, ?_⟩, ?_⟩
    · intro r hor
      apply Resolve_unknown
      rw [hrefs]
      by_cases hin : r ∈ set
      · rw [if_pos hin]
      · rw [if_neg hin]
        cases he : AList.lookup r s.refs with
        | none => rfl
        | some e =>
          obtain ⟨set', h2, h3⟩ := hissued r hor e he
          rw [hl] at h2
          exact absurd (Option.some.inj h2 ▸ h3) hin
    · rw [hs2r, AList.lookup_erase]
    · intro r hsc
      rw [hr2s] at hsc
      by_cases hc : r ∈ set ∧ r ∈ s.refs
      · rw [if_pos hc] at hsc
        exact Option.noConfusion hsc
      · rw [if_neg hc] at hsc
        have hin := hinv.scope_entry r scope hsc
        obtain ⟨e, he⟩ := Option.isSome_iff_exists.mp (AList.lookup_isSome.mpr hin)
        obtain ⟨set', h2, h3⟩ := hissued r (Or.inr hsc) e he
        rw [hl] at h2
        exact hc ⟨Option.some.inj h2 ▸ h3, hin⟩
    · intro r sc hiss hne
      apply Resolve_congr
      rw [hrefs]
      by_cases hin : r ∈ set
      · exfalso
        obtain ⟨h1, h2⟩ := hinv.set_entry scope set r hl hin
        obtain ⟨e, he⟩ := Option.isSome_iff_exists.mp (AList.lookup_isSome.mpr h1)
        obtain ⟨_, h3, _, _⟩ := hinv.scope_of_issued r sc e hiss he
        rw [h2] at h3
        exact hne (Option.some.inj h3).symm
      · rw [if_neg hin]

theorem sampleMediaStore_reachable :
    MediaReachable [("media://3", "chat-b"), ("media://2", "chat-a"), ("media://1", "chat-a")]
      sampleMediaStore :=
  MediaReachable.store _ _ ["/tmp/1", "/tmp/2", "/tmp/3"] "3" 30 "/tmp/3"
    (MediaMeta.mk "3.ogg" "audio/ogg" "discord") "chat-b"
    (MediaReachable.store _ _ ["/tmp/1", "/tmp/2", "/tmp/3"] "2" 20 "/tmp/2"
      (MediaMeta.mk "2.png" "image/png" "telegram") "chat-a"
      (MediaReachable.store _ _ ["/tmp/1", "/tmp/2", "/tmp/3"] "1" 10 "/tmp/1"
        (MediaMeta.mk "1.png" "image/png" "telegram") "chat-a"
        (MediaReachable.newWithCleanup _) (by decide) (by decide))
      (by decide) (by decide))
    (by decide) (by decide)

/-- On `sampleMediaStore`, releasing `chat-a` makes `media://1` unknown and leaves
`media://3` of `chat-b` resolving as before. -/
theorem releaseAll_releases_scope_witness :
    ("media://1", "chat-a") ∈
      [("media://3", "chat-b"), ("media://2", "chat-a"), ("media://1", "chat-a")] ∧
    (sampleMediaStore.ReleaseAll ["/tmp/1", "/tmp/2", "/tmp/3"] "chat-a").1.Resolve "media://1"
      = ("", some { msg := "media store: unknown ref: " ++ "media://1" }) ∧
    ("media://3", "chat-b") ∈
      [("media://3", "chat-b"), ("media://2", "chat-a"), ("media://1", "chat-a")] ∧
    "chat-b" ≠ "chat-a" ∧
    (sampleMediaStore.ReleaseAll ["/tmp/1", "/tmp/2", "/tmp/3"] "chat-a").1.Resolve "media://3"
      = sampleMediaStore.Resolve "media://3" :=
  ⟨by decide,
   ((releaseAll_releases_scope _ sampleMediaStore sampleMediaStore_reachable
      ["/tmp/1", "/tmp/2", "/tmp/3"] "chat-a").2.1 "media://1" (Or.inl (by decide))).1,
   by decide, by decide,
   ((releaseAll_releases_scope _ sampleMediaStore sampleMediaStore_reachable
      ["/tmp/1", "/tmp/2", "/tmp/3"] "chat-a").2.2.2 "media://3" "chat-b"
      (by decide) (by decide)).1⟩

end Media

/-! ## Concurrent callers of `LogEvent` -/

section Concurrent

variable {S L : Type}

theorem set_get_self {pcs : List LogPc} {i : Nat} {p : LogPc} (q : LogPc)
    (hp : pcs[i]? = some p) : (pcs.set i q)[i]? = some q := by
  obtain ⟨hlt, _⟩ := List.getElem?_eq_some.mp hp
  rw [List.getElem?_set, if_pos rfl, if_pos hlt]

theorem set_get_cases {pcs : List LogPc} {i j : Nat} {q x : LogPc}
    (h : (pcs.set i q)[j]? = some x) : (j = i ∧ x = q) ∨ (j ≠ i ∧ pcs[j]? = some x) := by
  rw [List.getElem?_set] at h
  by_cases hij : i = j
  · rw [if_pos hij] at h
    by_cases hlt : i < pcs.length
    · rw [if_pos hlt] at h
      exact Or.inl ⟨hij.symm, (Option.some.inj h).symm⟩
    · rw [if_neg hlt] at h
      exact Option.noConfusion h
  · rw [if_neg hij] at h
    exact Or.inr ⟨fun hji => hij hji.symm, h⟩

theorem appendedRequests_start (n : Nat) :
    ∀ reqs : List LogRequest, appendedRequests (List.replicate n LogPc.start) reqs = [] := by
  induction n with
  | zero =>
    intro reqs
    rfl
  | succ k ih =>
    intro reqs
    cases reqs with
    | nil => rfl
    | cons r rs =>
      rw [List.replicate_succ]
      unfold appendedRequests
      rw [if_neg (by decide)]
      exact ih rs

theorem appendedRequests_done (pcs : List LogPc) :
    ∀ reqs : List LogRequest, (∀ p ∈ pcs, p = LogPc.done) → pcs.length = reqs.length →
      appendedRequests pcs reqs = reqs := by
  induction pcs with
  | nil =>
    intro reqs _ hlen
    cases reqs with
    | nil => rfl
    | cons r rs => exact absurd hlen (by simp)
  | cons pc rest ih =>
    intro reqs hall hlen
    cases reqs with
    | nil => exact absurd hlen (by simp)
    | cons r rs =>
      have hpc : pc = LogPc.done := hall pc (List.mem_cons_self _ _)
      subst hpc
      unfold appendedRequests
      have hflag : LogPc.done.hasAppended = true := rfl
      rw [if_pos hflag, ih rs (fun p hp => hall p (List.mem_cons_of_mem _ hp))
        (by simpa using hlen)]

/-- A move that does not cross the assignment leaves the appended requests as they were. -/
theorem appendedRequests_set_same (pcs : List LogPc) :
    ∀ (reqs : List LogRequest) (i : Nat) (p q : LogPc), pcs[i]? = some p →
      q.hasAppended = p.hasAppended →
      appendedRequests (pcs.set i q) reqs = appendedRequests pcs reqs := by
  induction pcs with
  | nil =>
    intro reqs i p q hp _
    exact absurd hp (by simp)
  | cons pc rest ih =>
    intro reqs i p q hp hflag
    cases reqs with
    | nil =>
      cases i <;> rfl
    | cons r rs =>
      cases i with
      | zero =>
        have hpc : pc = p := by simpa using hp
        subst hpc
        rw [List.set_cons_zero]
        unfold appendedRequests
        rw [hflag]
      | succ k =>
        rw [List.set_cons_succ]
        unfold appendedRequests
        rw [ih rs k p q (by simpa using hp) hflag]

/-- The move across the assignment adds the request of the caller. -/
theorem appendedRequests_set_new (pcs : List LogPc) :
    ∀ (reqs : List LogRequest) (i : Nat) (p q : LogPc) (r : LogRequest), pcs[i]? = some p →
      reqs[i]? = some r → p.hasAppended = false → q.hasAppended = true →
      (appendedRequests (pcs.set i q) reqs).Perm (r :: appendedRequests pcs reqs) := by
  induction pcs with
  | nil =>
    intro reqs i p q r hp _ _ _
    exact absurd hp (by simp)
  | cons pc rest ih =>
    intro reqs i p q r hp hr hpf hqf
    cases reqs with
    | nil => exact absurd hr (by simp)
    | cons r0 rs =>
      cases i with
      | zero =>
        have hpc : pc = p := by simpa using hp
        have hr0 : r0 = r := by simpa using hr
        subst hpc
        subst hr0
        rw [List.set_cons_zero]
        unfold appendedRequests
        rw [if_pos hqf, if_neg (by rw [hpf]; decide)]
      | succ k =>
        have hrec := ih rs k p q r (by simpa using hp) (by simpa using hr) hpf hqf
        rw [List.set_cons_succ]
        unfold appendedRequests
        by_cases hpcf : pc.hasAppended = true
        · rw [if_pos hpcf, if_pos hpcf]
          exact (List.Perm.cons r0 hrec).trans (List.Perm.swap r r0 _)
        · rw [if_neg hpcf, if_neg hpcf]
          exact hrec

/-- A move of caller `i` from `p` to `q` keeps the invariant when the mutex is held
afterwards exactly if `q` is inside, nobody but `i` was inside before, a `q` between read
and assignment has read the timeline as it is afterwards, and the timeline either stays
(and `q` is on the same side of the assignment as `p`) or is the timeline read by `i`
followed by the event of `i` (and `q` is past the assignment). -/
theorem ConcInv.move {b0 : Brain S L} {reqs : List LogRequest} {st st' : ConcState S L}
    (hinv : ConcInv b0 reqs st) (i : Nat) (p q : LogPc)
    (hp : st.pcs[i]? = some p) (hpcs : st'.pcs = st.pcs.set i q)
    (hlock : st'.locked = q.inCritical)
    (hcrit : p.inCritical = true ∨ st.locked = false)
    (hread : ∀ timeline t, q = LogPc.read timeline t → timeline = st'.brain.Timeline)
    (htl : (st'.brain.Timeline = st.brain.Timeline ∧ q.hasAppended = p.hasAppended) ∨
      (∃ timeline t r, p = LogPc.read timeline t ∧ reqs[i]? = some r ∧ q.hasAppended = true ∧
        st'.brain.Timeline = timeline ++ [Event.mk t r.eventType r.data])) :
    ConcInv b0 reqs st' := by
  have hothers : ∀ (j : Nat) (x : LogPc), j ≠ i → st.pcs[j]? = some x → x.inCritical = false := by
    intro j x hji hx
    cases hxc : x.inCritical with
    | false => rfl
    | true =>
      rcases hcrit with hpc | hfree
      · exact absurd (hinv.exclusive j i x p hx hp hxc hpc) hji
      · have hl : st.locked = true := hinv.lock_iff.mpr ⟨j, x, hx, hxc⟩
        rw [hfree] at hl
        exact Bool.noConfusion hl
  have honly : ∀ (j : Nat) (x : LogPc), st'.pcs[j]? = some x → x.inCritical = true →
      j = i ∧ x = q := by
    intro j x hx hxc
    rw [hpcs] at hx
    rcases set_get_cases hx with h | ⟨hji, hold⟩
    · exact h
    · rw [hothers j x hji hold] at hxc
      exact Bool.noConfusion hxc
  constructor
  · rw [hpcs, List.length_set]
    exact hinv.length_eq
  · constructor
    · intro hl
      refine ⟨i, q, ?_, ?_⟩
      · rw [hpcs]
        exact set_get_self q hp
      · rw [← hlock]
        exact hl
    · rintro ⟨j, x, hx, hxc⟩
      obtain ⟨_, hxq⟩ := honly j x hx hxc
      rw [hlock, ← hxq]
      exact hxc
  · intro j k x y hx hy hxc hyc
    rw [(honly j x hx hxc).1, (honly k y hy hyc).1]
  · intro j timeline t hx
    obtain ⟨_, hq⟩ := honly j _ hx rfl
    exact hread timeline t hq.symm
  · obtain ⟨new, hnew, hperm⟩ := hinv.timeline
    rcases htl with ⟨hsame, hflag⟩ | ⟨timeline, t, r, hpr, hr, hqf, hassign⟩
    · refine ⟨new, by rw [hsame]; exact hnew, ?_⟩
      rw [hpcs, appendedRequests_set_same st.pcs reqs i p q hp hflag]
      exact hperm
    · subst hpr
      have hcur : timeline = st.brain.Timeline := hinv.read_current i timeline t hp
      refine ⟨new ++ [Event.mk t r.eventType r.data], ?_, ?_⟩
      · rw [hassign, hcur, hnew, List.append_assoc]
      · rw [hpcs, List.map_append]
        have hadd := appendedRequests_set_new st.pcs reqs i (LogPc.read timeline t) q r hp hr rfl hqf
        have hmap := hadd.map (fun r : LogRequest => (r.eventType, r.data))
        rw [List.map_cons] at hmap
        exact ((List.perm_append_singleton _ _).trans (List.Perm.cons _ hperm)).trans hmap.symm

/-- Every step of every caller keeps the invariant. -/
theorem ConcInv.step {b0 : Brain S L} {reqs : List LogRequest} {st : ConcState S L}
    (hinv : ConcInv b0 reqs st) (i : Nat) (now : Time) :
    ConcInv b0 reqs (st.step reqs i now) := by
  cases hp : st.pcs[i]? with
  | none =>
    have hsame : st.step reqs i now = st := by
      unfold ConcState.step
      rw [hp]
    rw [hsame]
    exact hinv
  | some p =>
    have hlt : i < reqs.length := by
      rw [← hinv.length_eq]
      exact (List.getElem?_eq_some.mp hp).1
    obtain ⟨r, hr⟩ : ∃ r, reqs[i]? = some r := ⟨reqs[i], List.getElem?_eq_getElem hlt⟩
    have hheld : p.inCritical = true → st.locked = true :=
      fun hc => hinv.lock_iff.mpr ⟨i, p, hp, hc⟩
    cases p with
    | start =>
      cases hl : st.locked with
      | true =>
        have hsame : st.step reqs i now = st := by
          unfold ConcState.step
          rw [hp, hr]
          dsimp only
          rw [hl]
          rfl
        rw [hsame]
        exact hinv
      | false =>
        have hstep : st.step reqs i now
            = { st with locked := true, pcs := st.pcs.set i LogPc.locked } := by
          unfold ConcState.step
          rw [hp, hr]
          dsimp only
          rw [hl]
          rfl
        rw [hstep]
        exact hinv.move i LogPc.start LogPc.locked hp rfl rfl (Or.inr hl)
          (fun _ _ h => LogPc.noConfusion h) (Or.inl ⟨rfl, rfl⟩)
    | locked =>
      have hstep : st.step reqs i now
          = { st with pcs := st.pcs.set i (LogPc.read st.brain.Timeline now) } := by
        unfold ConcState.step
        rw [hp, hr]
      rw [hstep]
      refine hinv.move i LogPc.locked (LogPc.read st.brain.Timeline now) hp rfl (hheld rfl)
        (Or.inl rfl) ?_ (Or.inl ⟨rfl, rfl⟩)
      intro timeline t h
      injection h with h1 _
      exact h1.symm
    | read timeline t =>
      have hstep : st.step reqs i now
          = { st with brain := { st.brain with
                        Timeline := timeline ++ [Event.mk t r.eventType r.data] }
                      pcs := st.pcs.set i LogPc.appended } := by
        unfold ConcState.step
        rw [hp, hr]
      rw [hstep]
      exact hinv.move i (LogPc.read timeline t) LogPc.appended hp rfl (hheld rfl) (Or.inl rfl)
        (fun _ _ h => LogPc.noConfusion h) (Or.inr ⟨timeline, t, r, rfl, hr, rfl, rfl⟩)
    | appended =>
      have hstep : st.step reqs i now
          = { st with brain := { st.brain with eventCount := wrapInt (st.brain.eventCount + 1) }
                      pcs := st.pcs.set i LogPc.counted } := by
        unfold ConcState.step
        rw [hp, hr]
      rw [hstep]
      exact hinv.move i LogPc.appended LogPc.counted hp rfl (hheld rfl) (Or.inl rfl)
        (fun _ _ h => LogPc.noConfusion h) (Or.inl ⟨rfl, rfl⟩)
    | counted =>
      by_cases hc : (indexBool st.brain.reflectOn r.eventType
          || decide (st.brain.eventCount ≥ st.brain.reflectEvery)) = true
      · have hstep : st.step reqs i now
            = { st with brain := { st.brain with eventCount := 0 }
                        effects := st.effects ++ [Effect.spawnReflect]
                        pcs := st.pcs.set i LogPc.decided } := by
          unfold ConcState.step
          rw [hp, hr]
          dsimp only
          rw [if_pos hc]
        rw [hstep]
        exact hinv.move i LogPc.counted LogPc.decided hp rfl (hheld rfl) (Or.inl rfl)
          (fun _ _ h => LogPc.noConfusion h) (Or.inl ⟨rfl, rfl⟩)
      · have hstep : st.step reqs i now = { st with pcs := st.pcs.set i LogPc.decided } := by
          unfold ConcState.step
          rw [hp, hr]
          dsimp only
          rw [if_neg hc]
        rw [hstep]
        exact hinv.move i LogPc.counted LogPc.decided hp rfl (hheld rfl) (Or.inl rfl)
          (fun _ _ h => LogPc.noConfusion h) (Or.inl ⟨rfl, rfl⟩)
    | decided =>
      have hstep : st.step reqs i now
          = { st with locked := false, pcs := st.pcs.set i LogPc.done } := by
        unfold ConcState.step
        rw [hp, hr]
      rw [hstep]
      exact hinv.move i LogPc.decided LogPc.done hp rfl rfl (Or.inl rfl)
        (fun _ _ h => LogPc.noConfusion h) (Or.inl ⟨rfl, rfl⟩)
    | done =>
      have hsame : st.step reqs i now = st := by
        unfold ConcState.step
        rw [hp, hr]
      rw [hsame]
      exact hinv

/-- The invariant holds before any caller has moved. -/
theorem ConcInv.init (b0 : Brain S L) (reqs : List LogRequest) :
    ConcInv b0 reqs (ConcState.init b0 reqs.length) := by
  have hstart : ∀ (i : Nat) (p : LogPc),
      (List.replicate reqs.length LogPc.start)[i]? = some p → p = LogPc.start := by
    intro i p hp
    rw [List.getElem?_replicate] at hp
    by_cases hlt : i < reqs.length
    · rw [if_pos hlt] at hp
      exact (Option.some.inj hp).symm
    · rw [if_neg hlt] at hp
      exact Option.noConfusion hp
  constructor
  · exact List.length_replicate _ _
  · constructor
    · intro h
      exact Bool.noConfusion h
    · rintro ⟨i, p, hp, hc⟩
      rw [hstart i p hp] at hc
      exact Bool.noConfusion hc
  · intro i j p q hp _ hc _
    rw [hstart i p hp] at hc
    exact Bool.noConfusion hc
  · intro i timeline t hp
    exact LogPc.noConfusion (hstart i _ hp)
  · refine ⟨[], (List.append_nil _).symm, ?_⟩
    show ([] : List (String × GoAny)).Perm
      ((appendedRequests (List.replicate reqs.length LogPc.start) reqs).map _)
    rw [appendedRequests_start]
    exact List.Perm.refl _

/-- The invariant holds after every interleaving. -/
theorem ConcInv.run {b0 : Brain S L} {reqs : List LogRequest} (schedule : List (Nat × Time)) :
    ∀ st : ConcState S L, ConcInv b0 reqs st → ConcInv b0 reqs (st.run reqs schedule) := by
  induction schedule with
  | nil =>
    intro st hinv
    exact hinv
  | cons x rest ih =>
    intro st hinv
    exact ih _ (hinv.step x.1 x.2)

theorem step_start_free {reqs : List LogRequest} {st : ConcState S L} {i : Nat}
    {r : LogRequest} (now : Time) (hp : st.pcs[i]? = some LogPc.start) (hr : reqs[i]? = some r)
    (hl : st.locked = false) :
    st.step reqs i now = { st with locked := true, pcs := st.pcs.set i LogPc.locked } := by
  unfold ConcState.step
  rw [hp, hr]
  dsimp only
  rw [hl]
  rfl

theorem step_locked {reqs : List LogRequest} {st : ConcState S L} {i : Nat}
    {r : LogRequest} (now : Time) (hp : st.pcs[i]? = some LogPc.locked) (hr : reqs[i]? = some r) :
    st.step reqs i now = { st with pcs := st.pcs.set i (LogPc.read st.brain.Timeline now) } := by
  unfold ConcState.step
  rw [hp, hr]

theorem step_read {reqs : List LogRequest} {st : ConcState S L} {i : Nat}
    {r : LogRequest} {timeline : List Event} {t : Time} (now : Time)
    (hp : st.pcs[i]? = some (LogPc.read timeline t)) (hr : reqs[i]? = some r) :
    st.step reqs i now
      = { st with brain := { st.brain with
                    Timeline := timeline ++ [Event.mk t r.eventType r.data] }
                  pcs := st.pcs.set i LogPc.appended } := by
  unfold ConcState.step
  rw [hp, hr]

theorem step_appended {reqs : List LogRequest} {st : ConcState S L} {i : Nat}
    {r : LogRequest} (now : Time) (hp : st.pcs[i]? = some LogPc.appended)
    (hr : reqs[i]? = some r) :
    st.step reqs i now
      = { st with brain := { st.brain with eventCount := wrapInt (st.brain.eventCount + 1) }
                  pcs := st.pcs.set i LogPc.counted } := by
  unfold ConcState.step
  rw [hp, hr]

theorem step_counted {reqs : List LogRequest} {st : ConcState S L} {i : Nat}
    {r : LogRequest} (now : Time) (hp : st.pcs[i]? = some LogPc.counted)
    (hr : reqs[i]? = some r) :
    st.step reqs i now
      = if indexBool st.brain.reflectOn r.eventType
            || decide (st.brain.eventCount ≥ st.brain.reflectEvery) then
          { st with brain := { st.brain with eventCount := 0 }
                    effects := st.effects ++ [Effect.spawnReflect]
                    pcs := st.pcs.set i LogPc.decided }
        else { st with pcs := st.pcs.set i LogPc.decided } := by
  unfold ConcState.step
  rw [hp, hr]

theorem step_decided {reqs : List LogRequest} {st : ConcState S L} {i : Nat}
    {r : LogRequest} (now : Time) (hp : st.pcs[i]? = some LogPc.decided)
    (hr : reqs[i]? = some r) :
    st.step reqs i now = { st with locked := false, pcs := st.pcs.set i LogPc.done } := by
  unfold ConcState.step
  rw [hp, hr]

/-- A caller that can move makes one statement of progress. -/
theorem step_advances {reqs : List LogRequest} {st : ConcState S L} {i : Nat} {p : LogPc}
    {r : LogRequest} (now : Time) (hp : st.pcs[i]? = some p) (hr : reqs[i]? = some r)
    (hen : p.inCritical = true ∨ (p = LogPc.start ∧ st.locked = false)) :
    ∃ q, (st.step reqs i now).pcs = st.pcs.set i q ∧ q.rank = p.rank + 1 := by
  cases p with
  | start =>
    rcases hen with h | ⟨_, hl⟩
    · exact Bool.noConfusion h
    · rw [step_start_free now hp hr hl]
      exact ⟨LogPc.locked, rfl, rfl⟩
  | locked =>
    rw [step_locked now hp hr]
    exact ⟨LogPc.read st.brain.Timeline now, rfl, rfl⟩
  | read timeline t =>
    rw [step_read now hp hr]
    exact ⟨LogPc.appended, rfl, rfl⟩
  | appended =>
    rw [step_appended now hp hr]
    exact ⟨LogPc.counted, rfl, rfl⟩
  | counted =>
    rw [step_counted now hp hr]
    split
    · exact ⟨LogPc.decided, rfl, rfl⟩
    · exact ⟨LogPc.decided, rfl, rfl⟩
  | decided =>
    rw [step_decided now hp hr]
    exact ⟨LogPc.done, rfl, rfl⟩
  | done =>
    rcases hen with h | ⟨h, _⟩
    · exact Bool.noConfusion h
    · exact LogPc.noConfusion h

theorem rank_sum_set (pcs : List LogPc) :
    ∀ (i : Nat) (p q : LogPc), pcs[i]? = some p →
      ((pcs.set i q).map LogPc.rank).sum + p.rank = (pcs.map LogPc.rank).sum + q.rank := by
  induction pcs with
  | nil =>
    intro i p q hp
    exact absurd hp (by simp)
  | cons pc rest ih =>
    intro i p q hp
    cases i with
    | zero =>
      have hpc : pc = p := by simpa using hp
      subst hpc
      simp only [List.set_cons_zero, List.map_cons, List.sum_cons]
      omega
    | succ k =>
      have hrec := ih k p q (by simpa using hp)
      simp only [List.set_cons_succ, List.map_cons, List.sum_cons]
      omega

theorem rank_sum_le (pcs : List LogPc) : (pcs.map LogPc.rank).sum ≤ 6 * pcs.length := by
  induction pcs with
  | nil => simp
  | cons pc rest ih =>
    have hpc : pc.rank ≤ 6 := by cases pc <;> simp [LogPc.rank]
    simp only [List.map_cons, List.sum_cons, List.length_cons]
    omega

/-- While a caller has not returned, some caller can move: no deadlock. -/
theorem ConcInv.enabled {b0 : Brain S L} {reqs : List LogRequest} {st : ConcState S L}
    (hinv : ConcInv b0 reqs st) (hsome : ¬ ∀ p ∈ st.pcs, p = LogPc.done) :
    ∃ i, ((st.step reqs i 0).pcs.map LogPc.rank).sum = (st.pcs.map LogPc.rank).sum + 1 := by
  have hmove : ∀ (i : Nat) (p : LogPc), st.pcs[i]? = some p →
      (p.inCritical = true ∨ (p = LogPc.start ∧ st.locked = false)) →
      ((st.step reqs i 0).pcs.map LogPc.rank).sum = (st.pcs.map LogPc.rank).sum + 1 := by
    intro i p hp hen
    have hlt : i < reqs.length := by
      rw [← hinv.length_eq]
      exact (List.getElem?_eq_some.mp hp).1
    have hr : reqs[i]? = some reqs[i] := List.getElem?_eq_getElem hlt
    obtain ⟨q, hq, hrank⟩ := step_advances 0 hp hr hen
    have hsum := rank_sum_set st.pcs i p q hp
    rw [hq]
    omega
  cases hl : st.locked with
  | true =>
    obtain ⟨i, p, hp, hc⟩ := hinv.lock_iff.mp hl
    exact ⟨i, hmove i p hp (Or.inl hc)⟩
  | false =>
    have hex : ∃ p ∈ st.pcs, p ≠ LogPc.done := by
      by_contra hno
      apply hsome
      intro p hp
      by_contra hne
      exact hno ⟨p, hp, hne⟩
    obtain ⟨p, hmem, hne⟩ := hex
    obtain ⟨i, hp⟩ := List.mem_iff_getElem?.mp hmem
    have hnc : p.inCritical = false := by
      cases hc : p.inCritical with
      | false => rfl
      | true =>
        have := hinv.lock_iff.mpr ⟨i, p, hp, hc⟩
        rw [hl] at this
        exact Bool.noConfusion this
    have hstart : p = LogPc.start := by
      cases p with
      | start => rfl
      | done => exact absurd rfl hne
      | locked => exact Bool.noConfusion hnc
      | read timeline t => exact Bool.noConfusion hnc
      | appended => exact Bool.noConfusion hnc
      | counted => exact Bool.noConfusion hnc
      | decided => exact Bool.noConfusion hnc
    exact ⟨i, hmove i p hp (Or.inr ⟨hstart, hl⟩)⟩

/-- Every state of an interleaving can be continued until all callers have returned. -/
theorem ConcInv.completes {b0 : Brain S L} {reqs : List LogRequest} (d : Nat) :
    ∀ st : ConcState S L, ConcInv b0 reqs st →
      6 * reqs.length - (st.pcs.map LogPc.rank).sum ≤ d →
      ∃ more, ∀ p ∈ (st.run reqs more).pcs, p = LogPc.done := by
  induction d with
  | zero =>
    intro st hinv hd
    by_cases hall : ∀ p ∈ st.pcs, p = LogPc.done
    · exact ⟨[], hall⟩
    · obtain ⟨i, hi⟩ := hinv.enabled hall
      have hle := rank_sum_le (st.step reqs i 0).pcs
      rw [(hinv.step i 0).length_eq] at hle
      omega
  | succ k ih =>
    intro st hinv hd
    by_cases hall : ∀ p ∈ st.pcs, p = LogPc.done
    · exact ⟨[], hall⟩
    · obtain ⟨i, hi⟩ := hinv.enabled hall
      have hle := rank_sum_le (st.step reqs i 0).pcs
      rw [(hinv.step i 0).length_eq] at hle
      obtain ⟨more, hmore⟩ := ih (st.step reqs i 0) (hinv.step i 0) (by omega)
      exact ⟨(i, 0) :: more, hmore⟩

/-- C22. When `M` callers each issue one `LogEvent` on the same Brain, then after every
interleaving of their statements in which all have returned, the timeline is the prior
timeline followed by exactly `M` new entries, which are the events of the `M` calls in
some order; and every interleaving can be continued until all callers have returned. -/
theorem concurrent_log_events (b : Brain S L) (reqs : List LogRequest)
    (schedule : List (Nat × Time)) :
    ((∀ p ∈ ((ConcState.init b reqs.length).run reqs schedule).pcs, p = LogPc.done) →
      ∃ new, ((ConcState.init b reqs.length).run reqs schedule).brain.Timeline
          = b.Timeline ++ new ∧
        new.length = reqs.length ∧
        (new.map (fun e => (e.Type_, e.Data))).Perm
          (reqs.map (fun r => (r.eventType, r.data)))) ∧
    (∃ more, ∀ p ∈ ((ConcState.init b reqs.length).run reqs (schedule ++ more)).pcs,
      p = LogPc.done) := by
  have hinv := ConcInv.run schedule _ (ConcInv.init b reqs)
  constructor
  · intro hall
    obtain ⟨new, hnew, hperm⟩ := hinv.timeline
    rw [appendedRequests_done _ reqs hall hinv.length_eq] at hperm
    refine ⟨new, hnew, ?_, hperm⟩
    have hlen := hperm.length_eq
    rw [List.length_map, List.length_map] at hlen
    exact hlen
  · obtain ⟨more, hmore⟩ := ConcInv.completes _ _ hinv (le_refl _)
    refine ⟨more, ?_⟩
    have happ : (ConcState.init b reqs.length).run reqs (schedule ++ more)
        = ((ConcState.init b reqs.length).run reqs schedule).run reqs more := by
      unfold ConcState.run
      rw [List.foldl_append]
    rw [happ]
    exact hmore

/-- A caller that runs its six statements without another caller moving in between does to
the Brain what `LogEvent` does, with the clock read at the append. -/
theorem run_alone_eq_LogEvent (reqs : List LogRequest) (st : ConcState S L) (i : Nat)
    (r : LogRequest) (t0 now t2 t3 t4 t5 : Time) (hp : st.pcs[i]? = some LogPc.start)
    (hr : reqs[i]? = some r) (hl : st.locked = false) :
    (st.run reqs [(i, t0), (i, now), (i, t2), (i, t3), (i, t4), (i, t5)]).brain
      = (st.brain.LogEvent now r.eventType r.data).brain ∧
    (st.run reqs [(i, t0), (i, now), (i, t2), (i, t3), (i, t4), (i, t5)]).effects
      = st.effects ++ (st.brain.LogEvent now r.eventType r.data).effects ∧
    (st.run reqs [(i, t0), (i, now), (i, t2), (i, t3), (i, t4), (i, t5)]).locked = false := by
  have e1 := step_start_free t0 hp hr hl
  have p1 : (st.step reqs i t0).pcs[i]? = some LogPc.locked := by
    rw [e1]
    exact set_get_self _ hp
  have e2 := step_locked now p1 hr
  have p2 : ((st.step reqs i t0).step reqs i now).pcs[i]?
      = some (LogPc.read (st.step reqs i t0).brain.Timeline now) := by
    rw [e2]
    exact set_get_self _ p1
  have e3 := step_read t2 p2 hr
  have p3 : (((st.step reqs i t0).step reqs i now).step reqs i t2).pcs[i]?
      = some LogPc.appended := by
    rw [e3]
    exact set_get_self _ p2
  have e4 := step_appended t3 p3 hr
  have p4 : ((((st.step reqs i t0).step reqs i now).step reqs i t2).step reqs i t3).pcs[i]?
      = some LogPc.counted := by
    rw [e4]
    exact set_get_self _ p3
  have e5 := step_counted t4 p4 hr
  have hb4 : ((((st.step reqs i t0).step reqs i now).step reqs i t2).step reqs i t3).brain
      = { st.brain with
          Timeline := st.brain.Timeline ++ [Event.mk now r.eventType r.data]
          eventCount := wrapInt (st.brain.eventCount + 1) } := by
    rw [e4, e3, e2, e1]
  have hf4 : ((((st.step reqs i t0).step reqs i now).step reqs i t2).step reqs i t3).effects
      = st.effects := by
    rw [e4, e3, e2, e1]
  have hrun : st.run reqs [(i, t0), (i, now), (i, t2), (i, t3), (i, t4), (i, t5)]
      = (((((st.step reqs i t0).step reqs i now).step reqs i t2).step reqs i t3).step
          reqs i t4).step reqs i t5 := by
    unfold ConcState.run
    simp only [List.foldl_cons, List.foldl_nil]
  by_cases hc : (indexBool st.brain.reflectOn r.eventType
      || decide (wrapInt (st.brain.eventCount + 1) ≥ st.brain.reflectEvery)) = true
  · have hc4 : (indexBool
          ((((st.step reqs i t0).step reqs i now).step reqs i t2).step reqs i t3).brain.reflectOn
          r.eventType
        || decide (((((st.step reqs i t0).step reqs i now).step reqs i t2).step
            reqs i t3).brain.eventCount
          ≥ ((((st.step reqs i t0).step reqs i now).step reqs i t2).step
            reqs i t3).brain.reflectEvery)) = true := by
      rw [hb4]
      exact hc
    rw [if_pos hc4] at e5
    have p5 : (((((st.step reqs i t0).step reqs i now).step reqs i t2).step reqs i t3).step
        reqs i t4).pcs[i]? = some LogPc.decided := by
      rw [e5]
      exact set_get_self _ p4
    have e6 := step_decided t5 p5 hr
    have hlog : st.brain.LogEvent now r.eventType r.data
        = { brain := { st.brain with
                Timeline := st.brain.Timeline ++ [Event.mk now r.eventType r.data]
                eventCount := 0 }
            effects := [Effect.spawnReflect], err := none } := by
      unfold Brain.LogEvent
      dsimp only
      rw [if_pos hc]
    rw [hrun, e6, e5, hlog]
    dsimp only
    rw [hb4, hf4]
    exact ⟨rfl, rfl, rfl⟩
  · have hc4 : ¬ (indexBool
          ((((st.step reqs i t0).step reqs i now).step reqs i t2).step reqs i t3).brain.reflectOn
          r.eventType
        || decide (((((st.step reqs i t0).step reqs i now).step reqs i t2).step
            reqs i t3).brain.eventCount
          ≥ ((((st.step reqs i t0).step reqs i now).step reqs i t2).step
            reqs i t3).brain.reflectEvery)) = true := by
      rw [hb4]
      exact hc
    rw [if_neg hc4] at e5
    have p5 : (((((st.step reqs i t0).step reqs i now).step reqs i t2).step reqs i t3).step
        reqs i t4).pcs[i]? = some LogPc.decided := by
      rw [e5]
      exact set_get_self _ p4
    have e6 := step_decided t5 p5 hr
    have hlog : st.brain.LogEvent now r.eventType r.data
        = { brain := { st.brain with
                Timeline := st.brain.Timeline ++ [Event.mk now r.eventType r.data]
                eventCount := wrapInt (st.brain.eventCount + 1) }
            effects := [], err := none } := by
      unfold Brain.LogEvent
      dsimp only
      rw [if_neg hc]
    rw [hrun, e6, e5, hlog]
    dsimp only
    rw [hb4, hf4, List.append_nil]
    exact ⟨rfl, rfl, rfl⟩

/-- Three callers under `sampleSchedule`, where callers 0 and 2 try to lock while caller 1
holds the mutex: all return, and the timeline holds their three events. -/
theorem concurrent_log_events_witness :
    (∀ p ∈ ((ConcState.init (NewBrain () ()) sampleRequests.length).run sampleRequests
        sampleSchedule).pcs, p = LogPc.done) ∧
    (∃ new, ((ConcState.init (NewBrain () ()) sampleRequests.length).run sampleRequests
          sampleSchedule).brain.Timeline
          = (NewBrain () () : Brain Unit Unit).Timeline ++ new ∧
        new.length = sampleRequests.length ∧
        (new.map (fun e => (e.Type_, e.Data))).Perm
          (sampleRequests.map (fun r => (r.eventType, r.data)))) :=
  ⟨by decide,
   (concurrent_log_events (NewBrain () ()) sampleRequests sampleSchedule).1 (by decide)⟩

end Concurrent

end Picoclaw
